import Mathlib

/-!
# A proof-of-work ledger node: the chain, the pending pool and the puzzle

A shallow embedding of `main.go`: the `Blockchain` ledger (`NewBlock`,
`NewTransaction`, `LastBlock`, `RegNode`, `InitBlockchain`), the mining handler
`Server.Mine`, and the two hashing helpers `Hash` and `ValidProof` with the
search `ProofOfWork` built on them.

Conventions of the embedding.

* A Go `string` is a Lean `String`, read as its UTF-8 bytes; a byte string that is
  not text (a raw digest) is a `List Nat` of byte values.
* `int64` and `int` values are `Int`; every arithmetic operation of the source is
  followed by `wrap64`, the two's-complement wrap-around of a 64-bit machine.
* The clock (`time.Now().Unix()`) and the process-wide `nodeID` are read by the
  source from its environment; here they are arguments.
* `ProofOfWork` is an unbounded loop; the embedding bounds the number of
  candidates tried by a fuel argument and answers `none` when the fuel runs out.
* A run-time fault of the source (index out of range, write to a nil map) is a
  value of `Fault`; an operation that can fault returns its result together with
  the ledger it leaves behind.
-/

/-! ## SHA-256 (`crypto/sha256`, FIPS 180-4) -/

namespace sha256

/-- The 64 round constants: the first 32 bits of the fractional parts of the cube
roots of the first 64 primes. -/
def K : List Nat :=
  [1116352408, 1899447441, 3049323471, 3921009573, 961987163, 1508970993,
   2453635748, 2870763221, 3624381080, 310598401, 607225278, 1426881987,
   1925078388, 2162078206, 2614888103, 3248222580, 3835390401, 4022224774,
   264347078, 604807628, 770255983, 1249150122, 1555081692, 1996064986,
   2554220882, 2821834349, 2952996808, 3210313671, 3336571891, 3584528711,
   113926993, 338241895, 666307205, 773529912, 1294757372, 1396182291,
   1695183700, 1986661051, 2177026350, 2456956037, 2730485921, 2820302411,
   3259730800, 3345764771, 3516065817, 3600352804, 4094571909, 275423344,
   430227734, 506948616, 659060556, 883997877, 958139571, 1322822218,
   1537002063, 1747873779, 1955562222, 2024104815, 2227730452, 2361852424,
   2428436474, 2756734187, 3204031479, 3329325298]

/-- Rotate a 32-bit word right by `n` bits. -/
def rotr (n x : Nat) : Nat := ((x >>> n) ||| (x <<< (32 - n))) % 4294967296

/-- The `k` low-order bytes of `x`, most significant first. -/
def beBytes : Nat → Nat → List Nat
  | 0, _ => []
  | k + 1, x => (x >>> (8 * k)) % 256 :: beBytes k x

/-- Message padding: a one bit, zero bytes up to 56 modulo 64, and the bit length
as a 64-bit big-endian number. -/
def pad (msg : List Nat) : List Nat :=
  msg ++ 128 :: (List.replicate ((119 - msg.length % 64) % 64) 0
    ++ beBytes 8 ((8 * msg.length) % 18446744073709551616))

/-- Group bytes four by four into big-endian 32-bit words. -/
def toWords : List Nat → List Nat
  | a :: b :: c :: d :: rest =>
    ((((a % 256) * 256 + b % 256) * 256 + c % 256) * 256 + d % 256) :: toWords rest
  | _ => []

/-- Extend the message schedule by `n` words; the schedule is kept most recent
word first. -/
def extend : Nat → List Nat → List Nat
  | 0, w => w
  | n + 1, w =>
    let w2 := w.getD 1 0
    let w7 := w.getD 6 0
    let w15 := w.getD 14 0
    let w16 := w.getD 15 0
    let s0 := rotr 7 w15 ^^^ rotr 18 w15 ^^^ (w15 >>> 3)
    let s1 := rotr 17 w2 ^^^ rotr 19 w2 ^^^ (w2 >>> 10)
    extend n (((w16 + s0 + w7 + s1) % 4294967296) :: w)

/-- The eight working variables of the compression function. -/
structure Vars where
  a : Nat
  b : Nat
  c : Nat
  d : Nat
  e : Nat
  f : Nat
  g : Nat
  h : Nat
deriving DecidableEq, Repr

/-- One round of the compression function. -/
def round (s : Vars) (k w : Nat) : Vars :=
  let S1 := rotr 6 s.e ^^^ rotr 11 s.e ^^^ rotr 25 s.e
  let ch := (s.e &&& s.f) ^^^ ((4294967295 - s.e) &&& s.g)
  let t1 := s.h + S1 + ch + k + w
  let S0 := rotr 2 s.a ^^^ rotr 13 s.a ^^^ rotr 22 s.a
  let maj := (s.a &&& s.b) ^^^ (s.a &&& s.c) ^^^ (s.b &&& s.c)
  let t2 := S0 + maj
  ⟨(t1 + t2) % 4294967296, s.a, s.b, s.c, (s.d + t1) % 4294967296, s.e, s.f, s.g⟩

/-- All rounds, one per constant and schedule word. -/
def rounds : Vars → List Nat → List Nat → Vars
  | s, k :: ks, w :: ws => rounds (round s k w) ks ws
  | s, _, _ => s

/-- Compress one 16-word block into the running hash value. -/
def compress (s : Vars) (block : List Nat) : Vars :=
  let w := (extend 48 block.reverse).reverse
  let r := rounds s K w
  ⟨(s.a + r.a) % 4294967296, (s.b + r.b) % 4294967296, (s.c + r.c) % 4294967296,
   (s.d + r.d) % 4294967296, (s.e + r.e) % 4294967296, (s.f + r.f) % 4294967296,
   (s.g + r.g) % 4294967296, (s.h + r.h) % 4294967296⟩

/-- Compress `n` consecutive blocks. -/
def blocks : Nat → Vars → List Nat → Vars
  | 0, s, _ => s
  | n + 1, s, ws => blocks n (compress s (ws.take 16)) (ws.drop 16)

/-- The initial hash value: the first 32 bits of the fractional parts of the square
roots of the first 8 primes. -/
def init : Vars :=
  ⟨1779033703, 3144134277, 1013904242, 2773480762,
   1359893119, 2600822924, 528734635, 1541459225⟩

/-- The big-endian bytes of the eight hash words. -/
def digest (s : Vars) : List Nat :=
  beBytes 4 s.a ++ beBytes 4 s.b ++ beBytes 4 s.c ++ beBytes 4 s.d
    ++ beBytes 4 s.e ++ beBytes 4 s.f ++ beBytes 4 s.g ++ beBytes 4 s.h

/-- `sha256.Sum256`: the 32-byte digest of a byte string. -/
def Sum256 (msg : List Nat) : List Nat :=
  let ws := toWords (pad msg)
  digest (blocks (ws.length / 16) init ws)

end sha256

/-! ## Text and numbers -/

/-- The UTF-8 bytes of a string: the conversion `[]byte(s)`. -/
def bytes (s : String) : List Nat :=
  (s.data.flatMap String.utf8EncodeChar).map UInt8.toNat

/-- The lowercase hexadecimal digit of a value below 16. -/
def hexDigit (n : Nat) : Char :=
  if n < 10 then Char.ofNat (48 + n) else Char.ofNat (87 + n)

/-- The format verb `%x` on a byte string: two lowercase hexadecimal digits a byte. -/
def hexString (bs : List Nat) : String :=
  String.mk (bs.flatMap fun b => [hexDigit (b / 16 % 16), hexDigit (b % 16)])

/-- Two's-complement wrap-around of a 64-bit signed integer. -/
def wrap64 (x : Int) : Int :=
  (x + 9223372036854775808) % 18446744073709551616 - 9223372036854775808

/-- The format verb `%d`: the decimal text of an integer. -/
def decimal (n : Int) : String := toString n

/-! ## The data model -/

/-- The struct `Transaction`. -/
structure Transaction where
  Sender : String
  Recipient : String
  Amount : Int
deriving DecidableEq, Repr

/-- The struct `Block`. -/
structure Block where
  Index : Int
  Timestamp : Int
  Transactions : List Transaction
  Proof : String
  PrevBlockHash : String
deriving DecidableEq, Repr

/-- The struct `Blockchain`. `Nodes` is a Go map from address to flag: `none` is the
nil map of a zero-valued ledger, `some m` an allocated map with the entries `m`. -/
structure Blockchain where
  Chain : List Block
  Transactions : List Transaction
  Nodes : Option (List (String × Bool))
deriving DecidableEq, Repr

/-- The run-time faults of the ledger operations. -/
inductive Fault where
  | indexOutOfRange
  | nilMapAssign
deriving DecidableEq, Repr

/-! ## JSON serialisation of a block (`encoding/json`) -/

/-- The bytes `encoding/json` writes for one character of a string: quotation mark
and backslash are escaped with a backslash, the control characters with their short
or `\u00XX` form, the HTML characters `<`, `>`, `&` and the separators U+2028 and
U+2029 with their `\uXXXX` form; any other character is its UTF-8 bytes. -/
def jsonChar (c : Char) : List Nat :=
  let n := c.toNat
  if n = 34 ∨ n = 92 then [92, n]
  else if n = 8 then [92, 98]
  else if n = 12 then [92, 102]
  else if n = 10 then [92, 110]
  else if n = 13 then [92, 114]
  else if n = 9 then [92, 116]
  else if n < 32 ∨ n = 60 ∨ n = 62 ∨ n = 38 then
    [92, 117, 48, 48, (hexDigit (n / 16)).toNat, (hexDigit (n % 16)).toNat]
  else if n = 8232 ∨ n = 8233 then
    [92, 117, 50, 48, 50, (hexDigit (n % 16)).toNat]
  else (String.utf8EncodeChar c).map UInt8.toNat

/-- A string as a JSON string literal. -/
def jsonString (s : String) : List Nat :=
  34 :: (s.data.flatMap jsonChar ++ [34])

/-- An integer as a JSON number. -/
def jsonInt (n : Int) : List Nat := bytes (decimal n)

/-- A transaction as a JSON object, fields in declaration order under their tags. -/
def jsonTransaction (t : Transaction) : List Nat :=
  bytes "\x7b\"sender\":" ++ jsonString t.Sender
    ++ bytes ",\"recipient\":" ++ jsonString t.Recipient
    ++ bytes ",\"amount\":" ++ jsonInt t.Amount ++ bytes "\x7d"

/-- The elements of a JSON array, separated by commas. -/
def jsonElements : List Transaction → List Nat
  | [] => []
  | [t] => jsonTransaction t
  | t :: ts => jsonTransaction t ++ 44 :: jsonElements ts

/-- A transaction slice as JSON. The only empty slice the ledger ever stores is the
nil slice, which is written `null`. -/
def jsonTransactions (ts : List Transaction) : List Nat :=
  if ts.isEmpty then bytes "null" else 91 :: (jsonElements ts ++ [93])

/-- The function `json.Marshal` on a block. -/
def jsonBlock (b : Block) : List Nat :=
  bytes "\x7b\"index\":" ++ jsonInt b.Index
    ++ bytes ",\"timestamp\":" ++ jsonInt b.Timestamp
    ++ bytes ",\"transactions\":" ++ jsonTransactions b.Transactions
    ++ bytes ",\"proof\":" ++ jsonString b.Proof
    ++ bytes ",\"prevblockhash\":" ++ jsonString b.PrevBlockHash ++ bytes "\x7d"

/-! ## Hashing and the proof-of-work puzzle -/

/-- The function `Hash`: the `%x` rendering of the SHA-256 digest of the block's JSON
serialisation. Marshalling a block of integers and strings cannot fail, so the
`log.Fatalf` branch is never taken. -/
def Hash (b : Block) : String :=
  hexString (sha256.Sum256 (jsonBlock b))

/-- The function `ValidProof`. The digest is formatted with `%s`, which for a byte
array is the 32 raw digest bytes themselves, and its first three bytes are compared
with the text `000`. -/
def ValidProof (lastProof proof : String) : Bool :=
  let result := sha256.Sum256 (bytes (lastProof ++ proof))
  if result.take 3 = bytes "000" then true else false

/-- The loop of `ProofOfWork`, entered with the counter at `proof` and allowed
`fuel` more candidates. -/
def ProofOfWorkLoop (lastProof : String) : Nat → Int → Option String
  | 0, _ => none
  | fuel + 1, proof =>
    if ValidProof lastProof (decimal proof) then some (decimal proof)
    else ProofOfWorkLoop lastProof fuel (wrap64 (proof + 1))

/-- The function `ProofOfWork`: the search starts at 0; `none` when no candidate
among the first `fuel` is valid. -/
def ProofOfWork (fuel : Nat) (lastProof : String) : Option String :=
  ProofOfWorkLoop lastProof fuel 0

/-- The acceptance test as the specification words it: the lowercase hexadecimal
text of the digest begins with three zero characters. -/
def ValidProofSpec (lastProof proof : String) : Bool :=
  let digestText := hexString (sha256.Sum256 (bytes (lastProof ++ proof)))
  if digestText.take 3 = "000" then true else false

/-! ## The ledger operations -/

namespace Blockchain

/-- The method `NewBlock`, given the clock reading `now`: returns the new block and
the ledger it leaves. -/
def NewBlock (bc : Blockchain) (proof prevBlockHash : String) (now : Int) :
    Block × Blockchain :=
  let newBlock : Block :=
    { Index := wrap64 ((bc.Chain.length : Int) + 1)
      Timestamp := now
      Transactions := bc.Transactions
      Proof := proof
      PrevBlockHash := prevBlockHash }
  (newBlock, { bc with Chain := bc.Chain ++ [newBlock], Transactions := [] })

/-- The method `LastBlock`: indexing an empty chain at `len - 1` faults. -/
def LastBlock (bc : Blockchain) : Except Fault Block :=
  match bc.Chain.getLast? with
  | some b => .ok b
  | none => .error .indexOutOfRange

/-- The method `NewTransaction`: the transaction is appended before the tip is
read, so a fault leaves it in the pool. -/
def NewTransaction (bc : Blockchain) (tx : Transaction) : Except Fault Int × Blockchain :=
  let bc1 := { bc with Transactions := bc.Transactions ++ [tx] }
  match bc1.LastBlock with
  | .ok b => (.ok (wrap64 (b.Index + 1)), bc1)
  | .error e => (.error e, bc1)

/-- Lookup in a Go map; a nil map has no entries. -/
def lookupNode (bc : Blockchain) (addr : String) : Option Bool :=
  match bc.Nodes with
  | some m => m.lookup addr
  | none => none

/-- The method `RegNode`: reading a nil map is allowed, writing to it faults. -/
def RegNode (bc : Blockchain) (addr : String) : Except Fault Bool × Blockchain :=
  let found := (bc.lookupNode addr).isSome
  match bc.Nodes with
  | some m => (.ok (!found), { bc with Nodes := some ((addr, true) :: m.filter fun e => e.1 ≠ addr) })
  | none => (.error .nilMapAssign, bc)

end Blockchain

/-- The function `InitBlockchain`, given the clock reading `now`. -/
def InitBlockchain (now : Int) : Blockchain :=
  (Blockchain.NewBlock { Chain := [], Transactions := [], Nodes := none } "100" "1" now).2

/-- The reward transaction of `Mine`. -/
def reward (nodeID : String) : Transaction :=
  { Sender := "0", Recipient := nodeID, Amount := 20 }

/-- The handler `Server.Mine` on the server's ledger, for the node identifier
`nodeID` and the clock reading `now`: `none` when the proof search does not return
within `fuel` candidates, otherwise the outcome and the ledger left behind. The
call of `NewTransaction` comes after `LastBlock` has returned a block, so the chain
is non-empty and the call cannot fault; its result is discarded as in the source. -/
def Server.Mine (fuel : Nat) (nodeID : String) (now : Int) (bc : Blockchain) :
    Option (Except Fault Unit × Blockchain) :=
  match bc.LastBlock with
  | .error e => some (.error e, bc)
  | .ok lastBlock =>
    let lastProof := lastBlock.Proof
    match ProofOfWork fuel lastProof with
    | none => none
    | some proof =>
      let bc1 := (bc.NewTransaction (reward nodeID)).2
      let prevHash := Hash lastBlock
      some (.ok (), (bc1.NewBlock proof prevHash now).2)

/-! ## Sequences of requests -/

/-- One request to the ledger, with what it reads from its environment. -/
inductive Op where
  | newTransaction (tx : Transaction)
  | newBlock (proof prevBlockHash : String) (now : Int)
  | mine (fuel : Nat) (nodeID : String) (now : Int)
  | regNode (addr : String)
  | lastBlock
deriving DecidableEq, Repr

/-- The ledger after one request; `none` when the request does not return. A request
that faults leaves the ledger as the fault found it. -/
def step (o : Op) (bc : Blockchain) : Option Blockchain :=
  match o with
  | .newTransaction tx => some (bc.NewTransaction tx).2
  | .newBlock proof prevBlockHash now => some (bc.NewBlock proof prevBlockHash now).2
  | .mine fuel nodeID now => (Server.Mine fuel nodeID now bc).map Prod.snd
  | .regNode addr => some (bc.RegNode addr).2
  | .lastBlock => some bc

/-- The ledger after a sequence of requests served one after the other. -/
def run : List Op → Blockchain → Option Blockchain
  | [], bc => some bc
  | o :: os, bc => (step o bc).bind (run os)

/-- Requests that are `NewTransaction` calls or `Mine` requests. -/
def Op.isTxOrMine : Op → Bool
  | .newTransaction _ => true
  | .mine _ _ _ => true
  | _ => false

/-- Requests that are `NewTransaction`, `NewBlock` or `Mine`. -/
def Op.isChainOp : Op → Bool
  | .newTransaction _ => true
  | .newBlock _ _ _ => true
  | .mine _ _ _ => true
  | _ => false

/-! ## Derived notions used in the statements -/

/-- The block `Mine` appends to a chain of `len` blocks with tip `tip`. -/
def minedBlock (len : Nat) (pool : List Transaction) (tip : Block) (proof nodeID : String)
    (now : Int) : Block :=
  { Index := wrap64 ((len : Int) + 1)
    Timestamp := now
    Transactions := pool ++ [reward nodeID]
    Proof := proof
    PrevBlockHash := Hash tip }

/-- The ledger invariant of mining: the chain is non-empty and a property `R`
holds between every block and its successor. -/
def Linked (R : Block → Block → Prop) (bc : Blockchain) : Prop :=
  bc.Chain ≠ [] ∧ ∀ i x y, bc.Chain[i]? = some x → bc.Chain[i + 1]? = some y → R x y

/-- The numbering invariant of the chain: it is non-empty and the block at 0-based
position `i` carries the index `i + 1` as a 64-bit integer. -/
def Numbered (bc : Blockchain) : Prop :=
  bc.Chain ≠ [] ∧ ∀ (i : Nat) (b : Block), bc.Chain[i]? = some b → b.Index = wrap64 ((i : Int) + 1)

/-! ## Further notions used in the statements -/

/-- Whether an address is a key of the peer map. -/
def Blockchain.hasNode (bc : Blockchain) (addr : String) : Bool :=
  (bc.lookupNode addr).isSome

/-- Requests that are `NewTransaction`, `NewBlock`, `Mine` or `LastBlock`. -/
def Op.isChainOrTipOp : Op → Bool
  | .regNode _ => false
  | _ => true

/-- Requests that are `Mine` requests. -/
def Op.isMine : Op → Bool
  | .mine _ _ _ => true
  | _ => false

/-- Requests that are `Mine` requests or `NewTransaction` calls with an amount that
is not negative. -/
def Op.isNonnegTxOrMine : Op → Bool
  | .newTransaction tx => decide (0 ≤ tx.Amount)
  | .mine _ _ _ => true
  | _ => false

/-- Every amount held by the ledger, pending or in a block, is at least zero. -/
def NonnegAmounts (bc : Blockchain) : Prop :=
  (∀ t ∈ bc.Transactions, 0 ≤ t.Amount) ∧
  ∀ b ∈ bc.Chain, ∀ t ∈ b.Transactions, 0 ≤ t.Amount

/-- The proof invariant of mining: the first block carries the genesis proof. -/
def GenesisProof (bc : Blockchain) : Prop :=
  ∃ g, bc.Chain[0]? = some g ∧ g.Proof = "100"

/-! ## A `Mine` request, one ledger access at a time

The server runs each request in its own goroutine and the ledger has no lock, so two
`Mine` requests interleave between any two accesses to the ledger. A request in
flight is its local variables and the point it stands at; a schedule says which
request takes its next step. The steps follow the statements of `Server.Mine` and of
the `NewTransaction` and `NewBlock` it calls:

* `lastBlock := s.Bc.LastBlock()` reads the chain;
* `proof := ProofOfWork(lastProof)` is local;
* `bc.Transactions = append(bc.Transactions, tx)` reads the pool, then stores it;
* `return bc.LastBlock().Index + 1` reads the chain (the value is discarded);
* `prevHash := Hash(lastBlock)` is local;
* `newBlock := Block{...}` reads the chain length, then the clock and the pool;
* `bc.Chain = append(bc.Chain, newBlock)` reads the chain, then stores it;
* `bc.Transactions = nil` stores the pool.

A schedule that runs the read and the store of a statement one after the other is an
interleaving of whole statements. -/

/-- The point a `Mine` request stands at, named after the last step it took. -/
inductive MinePc where
  | start
  | tipRead
  | proofFound
  | poolRead
  | rewardQueued
  | rewardAdmitted
  | tipHashed
  | indexTaken
  | blockBuilt
  | chainRead
  | blockAppended
  | done
  | faulted
deriving DecidableEq, Repr

/-- A `Mine` request in flight: what it reads from its environment (`fuel`, `nodeID`,
`now`), where it stands, the locals `lastBlock`, `proof`, `prevHash` of `Mine` and
`newBlock` of `NewBlock`, and the pool and chain values read for the two appends. -/
structure MineReq where
  fuel : Nat
  nodeID : String
  now : Int
  pc : MinePc
  lastBlock : Block
  proof : String
  prevHash : String
  pool : List Transaction
  newBlock : Block
  chain : List Block
deriving DecidableEq, Repr

/-- A request that has not taken any step; its locals hold zero values. -/
def MineReq.new (fuel : Nat) (nodeID : String) (now : Int) : MineReq :=
  { fuel := fuel, nodeID := nodeID, now := now, pc := .start,
    lastBlock := ⟨0, 0, [], "", ""⟩, proof := "", prevHash := "",
    pool := [], newBlock := ⟨0, 0, [], "", ""⟩, chain := [] }

/-- One step of a `Mine` request; `none` when the proof search does not return. -/
def MineReq.step (r : MineReq) (bc : Blockchain) : Option (MineReq × Blockchain) :=
  match r.pc with
  | .start =>
    match bc.LastBlock with
    | .ok b => some ({ r with pc := .tipRead, lastBlock := b }, bc)
    | .error _ => some ({ r with pc := .faulted }, bc)
  | .tipRead =>
    match ProofOfWork r.fuel r.lastBlock.Proof with
    | some p => some ({ r with pc := .proofFound, proof := p }, bc)
    | none => none
  | .proofFound => some ({ r with pc := .poolRead, pool := bc.Transactions }, bc)
  | .poolRead =>
    some ({ r with pc := .rewardQueued },
          { bc with Transactions := r.pool ++ [reward r.nodeID] })
  | .rewardQueued =>
    match bc.LastBlock with
    | .ok _ => some ({ r with pc := .rewardAdmitted }, bc)
    | .error _ => some ({ r with pc := .faulted }, bc)
  | .rewardAdmitted => some ({ r with pc := .tipHashed, prevHash := Hash r.lastBlock }, bc)
  | .tipHashed =>
    some ({ r with pc := .indexTaken,
                   newBlock := ⟨wrap64 ((bc.Chain.length : Int) + 1), r.now, [],
                                r.proof, r.prevHash⟩ }, bc)
  | .indexTaken =>
    some ({ r with pc := .blockBuilt,
                   newBlock := { r.newBlock with Transactions := bc.Transactions } }, bc)
  | .blockBuilt => some ({ r with pc := .chainRead, chain := bc.Chain }, bc)
  | .chainRead =>
    some ({ r with pc := .blockAppended }, { bc with Chain := r.chain ++ [r.newBlock] })
  | .blockAppended => some ({ r with pc := .done }, { bc with Transactions := [] })
  | .done => some (r, bc)
  | .faulted => some (r, bc)

/-- Two requests run under a schedule: `true` lets the first request take its next
step, `false` the second. -/
def interleave : List Bool → MineReq → MineReq → Blockchain →
    Option (MineReq × MineReq × Blockchain)
  | [], r1, r2, bc => some (r1, r2, bc)
  | true :: rest, r1, r2, bc =>
    match r1.step bc with
    | some (r1', bc') => interleave rest r1' r2 bc'
    | none => none
  | false :: rest, r1, r2, bc =>
    match r2.step bc with
    | some (r2', bc') => interleave rest r1 r2' bc'
    | none => none

theorem wrap64_of_range (x : Int) (h1 : -9223372036854775808 ≤ x)
    (h2 : x < 9223372036854775808) : wrap64 x = x := by
  unfold wrap64; omega

theorem wrap64_succ (a : Int) : wrap64 (wrap64 a + 1) = wrap64 (a + 1) := by
  unfold wrap64; omega

/-! ## The proof search -/

theorem ProofOfWorkLoop_sound (lastProof : String) :
    ∀ (fuel s : Nat) (p : String), (s : Int) + fuel ≤ 9223372036854775808 →
      ProofOfWorkLoop lastProof fuel s = some p →
      ∃ n : Nat, s ≤ n ∧ n < s + fuel ∧ p = decimal n ∧ ValidProof lastProof p = true ∧
        ∀ m : Nat, s ≤ m → m < n → ValidProof lastProof (decimal m) = false := by
  intro fuel
  induction fuel with
  | zero => intro s p _ h; simp [ProofOfWorkLoop] at h
  | succ k ih =>
    intro s p hb h
    unfold ProofOfWorkLoop at h
    by_cases hv : ValidProof lastProof (decimal (s : Int)) = true
    · rw [if_pos hv] at h
      have hp : decimal (s : Int) = p := Option.some.inj h
      refine ⟨s, le_refl s, by omega, hp.symm, hp ▸ hv, ?_⟩
      intro m h1 h2; omega
    · rw [if_neg hv] at h
      cases k with
      | zero => simp [ProofOfWorkLoop] at h
      | succ j =>
        have hw : wrap64 ((s : Int) + 1) = ((s + 1 : Nat) : Int) := by
          rw [wrap64_of_range] <;> push_cast <;> omega
        rw [hw] at h
        obtain ⟨n, h1, h2, h3, h4, h5⟩ := ih (s + 1) p (by push_cast; push_cast at hb; omega) h
        refine ⟨n, by omega, by omega, h3, h4, ?_⟩
        intro m hm1 hm2
        by_cases hms : m = s
        · subst hms; simpa using hv
        · exact h5 m (by omega) hm2

theorem ProofOfWorkLoop_complete (lastProof : String) :
    ∀ (fuel s n : Nat), s ≤ n → n < s + fuel → (s : Int) + fuel ≤ 9223372036854775808 →
      ValidProof lastProof (decimal (n : Int)) = true →
      ∃ p, ProofOfWorkLoop lastProof fuel s = some p := by
  intro fuel
  induction fuel with
  | zero => intro s n h1 h2; omega
  | succ k ih =>
    intro s n h1 h2 hb hv
    unfold ProofOfWorkLoop
    by_cases hs : ValidProof lastProof (decimal (s : Int)) = true
    · exact ⟨_, by rw [if_pos hs]⟩
    · rw [if_neg hs]
      have hne : n ≠ s := by rintro rfl; exact hs hv
      have hw : wrap64 ((s : Int) + 1) = ((s + 1 : Nat) : Int) := by
        rw [wrap64_of_range] <;> push_cast <;> omega
      rw [hw]
      exact ih (s + 1) n (by omega) (by omega) (by push_cast; push_cast at hb; omega) hv

/-- The search returns as soon as the fuel covers a valid candidate below 2^63. -/
theorem ProofOfWork_returns (lastProof : String) (n fuel : Nat) (hn : n < fuel)
    (hf : (fuel : Int) ≤ 9223372036854775808)
    (hv : ValidProof lastProof (decimal (n : Int)) = true) :
    ∃ p, ProofOfWork fuel lastProof = some p := by
  have := ProofOfWorkLoop_complete lastProof fuel 0 n (Nat.zero_le n) (by omega)
    (by push_cast; omega) hv
  simpa [ProofOfWork] using this

/-- What the search returns is a valid proof. -/
theorem ProofOfWork_valid (lastProof p : String) (fuel : Nat)
    (h : ProofOfWork fuel lastProof = some p) : ValidProof lastProof p = true := by
  have key : ∀ (k : Nat) (s : Int), ProofOfWorkLoop lastProof k s = some p →
      ValidProof lastProof p = true := by
    intro k
    induction k with
    | zero => intro s h; simp [ProofOfWorkLoop] at h
    | succ j ih =>
      intro s h
      unfold ProofOfWorkLoop at h
      by_cases hv : ValidProof lastProof (decimal s) = true
      · rw [if_pos hv] at h
        exact (Option.some.inj h) ▸ hv
      · rw [if_neg hv] at h
        exact ih _ h
  exact key fuel 0 h

/-! ## One request at a time -/

theorem LastBlock_of_getLast? (bc : Blockchain) (tip : Block)
    (h : bc.Chain.getLast? = some tip) : bc.LastBlock = .ok tip := by
  simp [Blockchain.LastBlock, h]

theorem Mine_of_search (fuel : Nat) (nodeID : String) (now : Int) (bc : Blockchain)
    (tip : Block) (p : String) (htip : bc.Chain.getLast? = some tip)
    (hp : ProofOfWork fuel tip.Proof = some p) :
    Server.Mine fuel nodeID now bc = some (.ok (),
      { Chain := bc.Chain ++ [minedBlock bc.Chain.length bc.Transactions tip p nodeID now]
        Transactions := []
        Nodes := bc.Nodes }) := by
  simp [Server.Mine, Blockchain.LastBlock, htip, hp, Blockchain.NewTransaction,
    Blockchain.NewBlock, minedBlock]

theorem Mine_cases (fuel : Nat) (nodeID : String) (now : Int) (bc bc' : Blockchain)
    (r : Except Fault Unit) (h : Server.Mine fuel nodeID now bc = some (r, bc')) :
    (bc.Chain = [] ∧ bc' = bc) ∨
    ∃ tip p, bc.Chain.getLast? = some tip ∧ ProofOfWork fuel tip.Proof = some p ∧
      bc' = { Chain := bc.Chain ++ [minedBlock bc.Chain.length bc.Transactions tip p nodeID now]
              Transactions := []
              Nodes := bc.Nodes } := by
  cases hl : bc.Chain.getLast? with
  | none =>
    left
    have hnil : bc.Chain = [] := List.getLast?_eq_none_iff.mp hl
    simp [Server.Mine, Blockchain.LastBlock, hl] at h
    exact ⟨hnil, h.2.symm⟩
  | some tip =>
    right
    cases hp : ProofOfWork fuel tip.Proof with
    | none => simp [Server.Mine, Blockchain.LastBlock, hl, hp] at h
    | some p =>
      rw [Mine_of_search fuel nodeID now bc tip p hl hp] at h
      exact ⟨tip, p, rfl, hp, (Prod.mk.inj (Option.some.inj h)).2.symm⟩

theorem step_mine_of_search (fuel : Nat) (nodeID : String) (now : Int) (bc : Blockchain)
    (tip : Block) (p : String) (htip : bc.Chain.getLast? = some tip)
    (hp : ProofOfWork fuel tip.Proof = some p) :
    step (Op.mine fuel nodeID now) bc = some
      { Chain := bc.Chain ++ [minedBlock bc.Chain.length bc.Transactions tip p nodeID now]
        Transactions := []
        Nodes := bc.Nodes } := by
  simp [step, Mine_of_search fuel nodeID now bc tip p htip hp]

theorem run_cons_of_step (o : Op) (os : List Op) (bc mid : Blockchain)
    (h : step o bc = some mid) : run (o :: os) bc = run os mid := by
  simp [run, h]

/-- A property of the ledger kept by every allowed request holds after any
sequence of allowed requests. -/
theorem run_preserves (P : Blockchain → Prop) (allowed : Op → Bool)
    (hstep : ∀ o bc bc', allowed o = true → P bc → step o bc = some bc' → P bc') :
    ∀ (ops : List Op) (bc bc' : Blockchain), (∀ o ∈ ops, allowed o = true) → P bc →
      run ops bc = some bc' → P bc' := by
  intro ops
  induction ops with
  | nil =>
    intro bc bc' _ hP h
    simp [run] at h
    exact h ▸ hP
  | cons o os ih =>
    intro bc bc' hall hP h
    simp only [run] at h
    cases hs : step o bc with
    | none => simp [hs] at h
    | some mid =>
      rw [hs] at h
      exact ih mid bc' (fun o' ho' => hall o' (List.mem_cons_of_mem _ ho'))
        (hstep o bc mid (hall o (List.mem_cons_self _ _)) hP hs) h

/-- A relation between neighbours of a list extends to the list with one more
element when it holds between the last element and the new one. -/
theorem neighbours_snoc {α : Type} (R : α → α → Prop) (l : List α) (b : α)
    (hl : ∀ i x y, l[i]? = some x → l[i + 1]? = some y → R x y)
    (hb : ∀ x, l.getLast? = some x → R x b) :
    ∀ i x y, (l ++ [b])[i]? = some x → (l ++ [b])[i + 1]? = some y → R x y := by
  intro i x y hx hy
  by_cases h1 : i + 1 < l.length
  · rw [List.getElem?_append_left (by omega)] at hx
    rw [List.getElem?_append_left h1] at hy
    exact hl i x y hx hy
  · by_cases h2 : i + 1 = l.length
    · rw [List.getElem?_append_left (by omega)] at hx
      rw [List.getElem?_append_right (by omega)] at hy
      have hy' : b = y := by
        have : i + 1 - l.length = 0 := by omega
        simpa [this] using hy
      subst hy'
      apply hb
      rw [List.getLast?_eq_getElem?]
      have : l.length - 1 = i := by omega
      rw [this]; exact hx
    · have : (l ++ [b])[i + 1]? = none := by
        apply List.getElem?_eq_none
        simp; omega
      rw [this] at hy; cases hy

theorem Linked_init (R : Block → Block → Prop) (now : Int) : Linked R (InitBlockchain now) := by
  refine ⟨by simp [InitBlockchain, Blockchain.NewBlock], ?_⟩
  intro i x y _ hy
  simp [InitBlockchain, Blockchain.NewBlock] at hy

theorem Linked_step (R : Block → Block → Prop)
    (hR : ∀ (tip : Block) (fuel len : Nat) (pool : List Transaction) (p nodeID : String)
      (now : Int), ProofOfWork fuel tip.Proof = some p →
      R tip (minedBlock len pool tip p nodeID now)) :
    ∀ o bc bc', Op.isTxOrMine o = true → Linked R bc → step o bc = some bc' →
      Linked R bc' := by
  intro o bc bc' ho hinv hs
  cases o with
  | newTransaction tx =>
    have : bc' = (bc.NewTransaction tx).2 := by simpa [step] using hs.symm
    subst this
    have hc : (bc.NewTransaction tx).2.Chain = bc.Chain := by
      simp only [Blockchain.NewTransaction]; split <;> rfl
    exact ⟨hc ▸ hinv.1, hc ▸ hinv.2⟩
  | mine fuel nodeID now =>
    simp only [step, Option.map_eq_some'] at hs
    obtain ⟨⟨r, s⟩, hm, rfl⟩ := hs
    rcases Mine_cases fuel nodeID now bc s r hm with ⟨hnil, _⟩ | ⟨tip, p, htip, hp, rfl⟩
    · exact absurd hnil hinv.1
    · refine ⟨by simp, ?_⟩
      apply neighbours_snoc R bc.Chain _ hinv.2
      intro x hx
      have : x = tip := by rw [htip] at hx; exact (Option.some.inj hx).symm
      subst this
      exact hR x fuel _ _ p nodeID now hp
  | newBlock _ _ _ => simp [Op.isTxOrMine] at ho
  | regNode _ => simp [Op.isTxOrMine] at ho
  | lastBlock => simp [Op.isTxOrMine] at ho

/-! ## What each operation leaves behind -/

theorem NewTransaction_snd (bc : Blockchain) (tx : Transaction) :
    (bc.NewTransaction tx).2 = { bc with Transactions := bc.Transactions ++ [tx] } := by
  simp only [Blockchain.NewTransaction]; split <;> rfl

theorem NewTransaction_fst (bc : Blockchain) (tx : Transaction) (tip : Block)
    (htip : bc.Chain.getLast? = some tip) :
    (bc.NewTransaction tx).1 = .ok (wrap64 (tip.Index + 1)) := by
  simp [Blockchain.NewTransaction, Blockchain.LastBlock, htip]

theorem RegNode_chain (bc : Blockchain) (addr : String) :
    (bc.RegNode addr).2.Chain = bc.Chain := by
  simp only [Blockchain.RegNode]; split <;> rfl

theorem run_newTransactions (txs : List Transaction) :
    ∀ bc : Blockchain, run (txs.map Op.newTransaction) bc
      = some { bc with Transactions := bc.Transactions ++ txs } := by
  induction txs with
  | nil => intro bc; simp [run]
  | cons t ts ih =>
    intro bc
    simp [run, step, NewTransaction_snd, ih]

theorem getElem?_snoc_cases {α : Type} (l : List α) (x b : α) (i : Nat)
    (h : (l ++ [x])[i]? = some b) : l[i]? = some b ∨ (i = l.length ∧ b = x) := by
  by_cases h1 : i < l.length
  · rw [List.getElem?_append_left h1] at h
    exact Or.inl h
  · right
    rw [List.getElem?_append_right (by omega)] at h
    by_cases h2 : i = l.length
    · refine ⟨h2, ?_⟩
      have : i - l.length = 0 := by omega
      simpa [this] using h.symm
    · have : i - l.length ≠ 0 := by omega
      obtain ⟨j, hj⟩ := Nat.exists_eq_succ_of_ne_zero this
      simp [hj] at h

theorem Numbered_snoc (bc : Blockchain) (blk : Block) (pool : List Transaction)
    (nodes : Option (List (String × Bool)))
    (hidx : blk.Index = wrap64 ((bc.Chain.length : Int) + 1))
    (hnum : ∀ (i : Nat) (b : Block), bc.Chain[i]? = some b → b.Index = wrap64 ((i : Int) + 1)) :
    Numbered { Chain := bc.Chain ++ [blk], Transactions := pool, Nodes := nodes } := by
  refine ⟨by simp, ?_⟩
  intro i b hb
  rcases getElem?_snoc_cases bc.Chain blk b i hb with h | ⟨h1, h2⟩
  · exact hnum i b h
  · subst h1; subst h2; exact hidx

theorem Numbered_init (now : Int) : Numbered (InitBlockchain now) := by
  refine ⟨by simp [InitBlockchain, Blockchain.NewBlock], ?_⟩
  intro i b hb
  cases i with
  | zero =>
    simp [InitBlockchain, Blockchain.NewBlock] at hb
    rw [← hb]; rfl
  | succ j => simp [InitBlockchain, Blockchain.NewBlock] at hb

/-- Every request keeps the numbering invariant. -/
theorem Numbered_step (o : Op) (bc bc' : Blockchain) (hinv : Numbered bc)
    (hs : step o bc = some bc') : Numbered bc' := by
  cases o with
  | newTransaction tx =>
    have : bc' = (bc.NewTransaction tx).2 := by simpa [step] using hs.symm
    subst this
    rw [NewTransaction_snd]
    exact hinv
  | newBlock proof prevBlockHash now =>
    have : bc' = (bc.NewBlock proof prevBlockHash now).2 := by simpa [step] using hs.symm
    subst this
    exact Numbered_snoc bc _ _ _ rfl hinv.2
  | mine fuel nodeID now =>
    simp only [step, Option.map_eq_some'] at hs
    obtain ⟨⟨r, s⟩, hm, rfl⟩ := hs
    rcases Mine_cases fuel nodeID now bc s r hm with ⟨_, rfl⟩ | ⟨tip, p, _, _, rfl⟩
    · exact hinv
    · exact Numbered_snoc bc _ _ _ rfl hinv.2
  | regNode addr =>
    have : bc' = (bc.RegNode addr).2 := by simpa [step] using hs.symm
    subst this
    have hc := RegNode_chain bc addr
    exact ⟨hc ▸ hinv.1, hc ▸ hinv.2⟩
  | lastBlock =>
    have : bc' = bc := by simpa [step] using hs.symm
    subst this
    exact hinv

/-- Every ledger reached from the fresh one by requests of an allowed kind satisfies
the numbering invariant. -/
theorem Numbered_run (allowed : Op → Bool) (now : Int) (ops : List Op) (bc : Blockchain)
    (hops : ∀ o ∈ ops, allowed o = true)
    (hrun : run ops (InitBlockchain now) = some bc) : Numbered bc :=
  run_preserves Numbered allowed (fun o s s' _ h hs => Numbered_step o s s' h hs)
    ops (InitBlockchain now) bc hops (Numbered_init now) hrun

/-- In a numbered chain the tip carries the chain length as its index. -/
theorem Numbered_tip (bc : Blockchain) (tip : Block) (hinv : Numbered bc)
    (htip : bc.Chain.getLast? = some tip) :
    tip.Index = wrap64 (bc.Chain.length : Int) := by
  rw [List.getLast?_eq_getElem?] at htip
  have h := hinv.2 _ tip htip
  have hpos : 0 < bc.Chain.length := List.length_pos.mpr hinv.1
  have hc : ((bc.Chain.length - 1 : Nat) : Int) + 1 = (bc.Chain.length : Int) := by omega
  rw [hc] at h
  exact h

theorem exists_tip (bc : Blockchain) (hne : bc.Chain ≠ []) :
    ∃ tip, bc.Chain.getLast? = some tip := by
  cases h : bc.Chain.getLast? with
  | none => exact absurd (List.getLast?_eq_none_iff.mp h) hne
  | some t => exact ⟨t, rfl⟩

/-! ## The peer map -/

/-- No request allocates the peer map. -/
theorem Nodes_none_step (o : Op) (bc bc' : Blockchain) (hn : bc.Nodes = none)
    (hs : step o bc = some bc') : bc'.Nodes = none := by
  cases o with
  | newTransaction tx =>
    have : bc' = (bc.NewTransaction tx).2 := by simpa [step] using hs.symm
    subst this
    rw [NewTransaction_snd]; exact hn
  | newBlock proof prevBlockHash now =>
    have : bc' = (bc.NewBlock proof prevBlockHash now).2 := by simpa [step] using hs.symm
    subst this
    exact hn
  | mine fuel nodeID now =>
    simp only [step, Option.map_eq_some'] at hs
    obtain ⟨⟨r, s⟩, hm, rfl⟩ := hs
    rcases Mine_cases fuel nodeID now bc s r hm with ⟨_, rfl⟩ | ⟨tip, p, _, _, rfl⟩
    · exact hn
    · exact hn
  | regNode addr =>
    have : bc' = (bc.RegNode addr).2 := by simpa [step] using hs.symm
    subst this
    simp [Blockchain.RegNode, hn]
  | lastBlock =>
    have : bc' = bc := by simpa [step] using hs.symm
    subst this
    exact hn

theorem lookup_filter_ne (m : List (String × Bool)) (a a' : String) (h : a' ≠ a) :
    List.lookup a' (m.filter fun e => e.1 ≠ a) = List.lookup a' m := by
  induction m with
  | nil => rfl
  | cons e rest ih =>
    obtain ⟨k, v⟩ := e
    by_cases hk : k = a
    · subst hk
      have hne : (a' == k) = false := by simpa using h
      simp only [List.filter, List.lookup, hne, ne_eq, not_true_eq_false, decide_False]
      exact ih
    · by_cases hk' : a' = k
      · subst hk'
        simp [List.filter, List.lookup, hk]
      · have hne : (a' == k) = false := by simpa using hk'
        simp only [List.filter, List.lookup, hne, ne_eq, hk, not_false_eq_true, decide_True]
        exact ih

theorem filter_ne_idem (m : List (String × Bool)) (a : String) :
    ((m.filter fun e => e.1 ≠ a).filter fun e => e.1 ≠ a) = m.filter fun e => e.1 ≠ a := by
  simp [List.filter_filter]

/-! ## The digest text -/

theorem beBytes_length (k x : Nat) : (sha256.beBytes k x).length = k := by
  induction k with
  | zero => rfl
  | succ j ih => simp [sha256.beBytes, ih]

theorem Sum256_length (msg : List Nat) : (sha256.Sum256 msg).length = 32 := by
  simp [sha256.Sum256, sha256.digest, beBytes_length]

theorem hexDigit_mem : ∀ n : Nat, n < 16 → hexDigit n ∈ "0123456789abcdef".toList := by
  decide

theorem hexString_length (bs : List Nat) : (hexString bs).length = 2 * bs.length := by
  unfold hexString
  rw [String.length]
  induction bs with
  | nil => rfl
  | cons b rest ih => simp only [List.flatMap_cons, List.length_append, ih, List.length_cons,
      List.length_nil]; omega

theorem hexString_chars (bs : List Nat) :
    ∀ c ∈ (hexString bs).toList, c ∈ "0123456789abcdef".toList := by
  intro c hc
  simp only [hexString, String.toList, List.mem_flatMap] at hc
  obtain ⟨b, _, hb⟩ := hc
  simp only [List.mem_cons, List.mem_singleton, List.not_mem_nil, or_false] at hb
  rcases hb with rfl | rfl
  · exact hexDigit_mem _ (Nat.mod_lt _ (by decide))
  · exact hexDigit_mem _ (Nat.mod_lt _ (by decide))

/-! ## Growth of the chain -/

/-- What one request does to the chain. -/
theorem step_chain (o : Op) (bc bc' : Blockchain) (hs : step o bc = some bc') :
    ∃ added : List Block, bc'.Chain = bc.Chain ++ added ∧
      added.length = (match o with
        | .newBlock _ _ _ => 1
        | .mine _ _ _ => if bc.Chain.isEmpty then 0 else 1
        | _ => 0) := by
  cases o with
  | newTransaction tx =>
    have : bc' = (bc.NewTransaction tx).2 := by simpa [step] using hs.symm
    subst this
    exact ⟨[], by rw [NewTransaction_snd]; simp, rfl⟩
  | newBlock proof prevBlockHash now =>
    have : bc' = (bc.NewBlock proof prevBlockHash now).2 := by simpa [step] using hs.symm
    subst this
    exact ⟨[_], rfl, rfl⟩
  | mine fuel nodeID now =>
    simp only [step, Option.map_eq_some'] at hs
    obtain ⟨⟨r, s⟩, hm, rfl⟩ := hs
    rcases Mine_cases fuel nodeID now bc s r hm with ⟨hnil, rfl⟩ | ⟨tip, p, htip, _, rfl⟩
    · exact ⟨[], by simp, by simp [hnil]⟩
    · have hne : bc.Chain ≠ [] := by
        intro h; rw [h] at htip; cases htip
      refine ⟨[_], rfl, ?_⟩
      have : bc.Chain.isEmpty = false := by
        cases hc : bc.Chain with
        | nil => exact absurd hc hne
        | cons _ _ => rfl
      simp [this]
  | regNode addr =>
    have : bc' = (bc.RegNode addr).2 := by simpa [step] using hs.symm
    subst this
    exact ⟨[], by rw [RegNode_chain]; simp, rfl⟩
  | lastBlock =>
    have : bc' = bc := by simpa [step] using hs.symm
    subst this
    exact ⟨[], by simp, rfl⟩

/-- A sequence of transactions and mining requests on a non-empty chain appends one
block for each mining request. -/
theorem run_length (ops : List Op) :
    ∀ (bc bc' : Blockchain), (∀ o ∈ ops, Op.isTxOrMine o = true) → bc.Chain ≠ [] →
      run ops bc = some bc' →
      bc'.Chain.length = bc.Chain.length + (ops.filter Op.isMine).length := by
  induction ops with
  | nil =>
    intro bc bc' _ _ h
    simp [run] at h
    subst h; simp
  | cons o os ih =>
    intro bc bc' hall hne h
    simp only [run] at h
    cases hs : step o bc with
    | none => simp [hs] at h
    | some mid =>
      rw [hs] at h
      simp only [Option.some_bind] at h
      obtain ⟨added, hch, hlen⟩ := step_chain o bc mid hs
      have hmid : mid.Chain ≠ [] := by
        rw [hch]; intro hcon
        exact hne (List.append_eq_nil.mp hcon).1
      have hrec := ih mid bc' (fun o' ho' => hall o' (List.mem_cons_of_mem _ ho')) hmid h
      have ho := hall o (List.mem_cons_self _ _)
      have hempty : bc.Chain.isEmpty = false := by
        cases hc : bc.Chain with
        | nil => exact absurd hc hne
        | cons _ _ => rfl
      rw [hrec, hch, List.length_append, hlen]
      cases o with
      | newTransaction tx => simp [List.filter, Op.isMine]
      | mine fuel nodeID now => simp [List.filter, Op.isMine, hempty]; omega
      | newBlock _ _ _ => simp [Op.isTxOrMine] at ho
      | regNode _ => simp [Op.isTxOrMine] at ho
      | lastBlock => simp [Op.isTxOrMine] at ho

/-! ## Determinism of the proof search -/

theorem ProofOfWorkLoop_fuel_indep (lastProof : String) :
    ∀ (f1 f2 : Nat) (s : Int) (p1 p2 : String),
      ProofOfWorkLoop lastProof f1 s = some p1 → ProofOfWorkLoop lastProof f2 s = some p2 →
      p1 = p2 := by
  intro f1
  induction f1 with
  | zero => intro f2 s p1 p2 h; simp [ProofOfWorkLoop] at h
  | succ k ih =>
    intro f2 s p1 p2 h1 h2
    cases f2 with
    | zero => simp [ProofOfWorkLoop] at h2
    | succ j =>
      unfold ProofOfWorkLoop at h1 h2
      by_cases hv : ValidProof lastProof (decimal s) = true
      · rw [if_pos hv] at h1 h2
        exact (Option.some.inj h1).symm.trans (Option.some.inj h2)
      · rw [if_neg hv] at h1 h2
        exact ih j _ p1 p2 h1 h2

/-- The search gives the same answer whatever the fuel, when it gives one. -/
theorem ProofOfWork_fuel_indep (lastProof p1 p2 : String) (f1 f2 : Nat)
    (h1 : ProofOfWork f1 lastProof = some p1) (h2 : ProofOfWork f2 lastProof = some p2) :
    p1 = p2 :=
  ProofOfWorkLoop_fuel_indep lastProof f1 f2 0 p1 p2 h1 h2

theorem GenesisProof_step (o : Op) (bc bc' : Blockchain) (hinv : GenesisProof bc)
    (hs : step o bc = some bc') : GenesisProof bc' := by
  obtain ⟨added, hch, _⟩ := step_chain o bc bc' hs
  obtain ⟨g, hg, hp⟩ := hinv
  refine ⟨g, ?_, hp⟩
  rw [hch, List.getElem?_append_left]
  · exact hg
  · by_contra hcon
    rw [List.getElem?_eq_none (by omega)] at hg
    cases hg

/-- Two chains that start with the same proof and in which each proof is the one
the search finds for the proof before it carry the same proofs position by
position. -/
theorem proofs_agree (l1 l2 : List Block)
    (h0 : ∀ a b, l1[0]? = some a → l2[0]? = some b → a.Proof = b.Proof)
    (hn1 : ∀ i a b, l1[i]? = some a → l1[i + 1]? = some b →
      ∃ fuel, ProofOfWork fuel a.Proof = some b.Proof)
    (hn2 : ∀ i a b, l2[i]? = some a → l2[i + 1]? = some b →
      ∃ fuel, ProofOfWork fuel a.Proof = some b.Proof) :
    ∀ (i : Nat) (a b : Block), l1[i]? = some a → l2[i]? = some b → a.Proof = b.Proof := by
  intro i
  induction i with
  | zero => exact h0
  | succ j ih =>
    intro a b ha hb
    have hj1 : j < l1.length := by
      by_contra hcon
      rw [List.getElem?_eq_none (by omega)] at ha
      cases ha
    have hj2 : j < l2.length := by
      by_contra hcon
      rw [List.getElem?_eq_none (by omega)] at hb
      cases hb
    have ha' : l1[j]? = some l1[j] := List.getElem?_eq_getElem hj1
    have hb' : l2[j]? = some l2[j] := List.getElem?_eq_getElem hj2
    have hprev := ih l1[j] l2[j] ha' hb'
    obtain ⟨f1, hf1⟩ := hn1 j l1[j] a ha' ha
    obtain ⟨f2, hf2⟩ := hn2 j l2[j] b hb' hb
    rw [hprev] at hf1
    exact ProofOfWork_fuel_indep _ _ _ f1 f2 hf1 hf2

/-! ## Amounts -/

theorem NonnegAmounts_step (o : Op) (bc bc' : Blockchain) (ho : Op.isNonnegTxOrMine o = true)
    (hinv : NonnegAmounts bc) (hs : step o bc = some bc') : NonnegAmounts bc' := by
  cases o with
  | newTransaction tx =>
    have : bc' = (bc.NewTransaction tx).2 := by simpa [step] using hs.symm
    subst this
    rw [NewTransaction_snd]
    have htx : 0 ≤ tx.Amount := by simpa [Op.isNonnegTxOrMine] using ho
    refine ⟨?_, hinv.2⟩
    intro t ht
    rcases List.mem_append.mp ht with h | h
    · exact hinv.1 t h
    · rw [List.mem_singleton.mp h]; exact htx
  | mine fuel nodeID now =>
    simp only [step, Option.map_eq_some'] at hs
    obtain ⟨⟨r, s⟩, hm, rfl⟩ := hs
    rcases Mine_cases fuel nodeID now bc s r hm with ⟨_, rfl⟩ | ⟨tip, p, _, _, rfl⟩
    · exact hinv
    · refine ⟨by simp, ?_⟩
      intro b hb t ht
      rcases List.mem_append.mp hb with h | h
      · exact hinv.2 b h t ht
      · rw [List.mem_singleton.mp h] at ht
        rcases List.mem_append.mp ht with h' | h'
        · exact hinv.1 t h'
        · rw [List.mem_singleton.mp h']; simp [reward]
  | newBlock _ _ _ => simp [Op.isNonnegTxOrMine] at ho
  | regNode _ => simp [Op.isNonnegTxOrMine] at ho
  | lastBlock => simp [Op.isNonnegTxOrMine] at ho

/-! ## Interleaved mining -/

/-- The steps of one request, taken without interruption, are `Server.Mine`. -/
theorem Mine_as_steps (fuel : Nat) (nodeID : String) (now : Int) (r2 : MineReq)
    (bc : Blockchain) :
    (interleave [true, true, true, true, true, true, true, true, true, true, true]
        (MineReq.new fuel nodeID now) r2 bc).map (fun s => s.2.2)
      = (Server.Mine fuel nodeID now bc).map Prod.snd := by
  cases hl : bc.Chain.getLast? with
  | none =>
    simp [interleave, MineReq.step, MineReq.new, Server.Mine, Blockchain.LastBlock, hl]
  | some tip =>
    cases hp : ProofOfWork fuel tip.Proof with
    | none =>
      simp [interleave, MineReq.step, MineReq.new, Server.Mine, Blockchain.LastBlock, hl, hp]
    | some p =>
      rw [Mine_of_search fuel nodeID now bc tip p hl hp]
      simp [interleave, MineReq.step, MineReq.new, Blockchain.LastBlock, hl, hp, minedBlock]

/-! # The properties of the specification -/

/-- C1. Hash linkage: in every ledger reached from `InitBlockchain` by a sequence of
`NewTransaction` calls and `Mine` requests that all return, with any timestamps and
node identifiers, each block after the first carries in `PrevBlockHash` the `Hash`
of the block before it. -/
theorem hash_linkage (now : Int) (ops : List Op) (bc : Blockchain)
    (hops : ∀ o ∈ ops, Op.isTxOrMine o = true)
    (hrun : run ops (InitBlockchain now) = some bc) :
    ∀ (i : Nat) (a b : Block), bc.Chain[i]? = some a → bc.Chain[i + 1]? = some b →
      b.PrevBlockHash = Hash a := by
  have hinv := run_preserves (Linked fun a b => b.PrevBlockHash = Hash a) Op.isTxOrMine
    (Linked_step _ (fun _ _ _ _ _ _ _ _ => rfl)) ops (InitBlockchain now) bc hops
    (Linked_init _ now) hrun
  exact hinv.2

/-- Witness of C1: a transaction and then a mining request on the fresh ledger
return, and give a chain of two blocks, the second linked to the genesis block. -/
theorem hash_linkage_witness :
    ∃ (bc : Blockchain) (g b : Block),
      run [Op.newTransaction ⟨"a", "b", 5⟩, Op.mine 4235414 "node-1" 1700000000]
        (InitBlockchain 0) = some bc ∧
      bc.Chain = [g, b] ∧ b.PrevBlockHash = Hash g := by
  have hv : ValidProof "100" (decimal (4235413 : Nat)) = true := by decide
  obtain ⟨p, hp⟩ := ProofOfWork_returns "100" 4235413 4235414 (by omega) (by decide) hv
  have h1 : step (Op.newTransaction ⟨"a", "b", 5⟩) (InitBlockchain 0)
      = some ⟨[⟨1, 0, [], "100", "1"⟩], [⟨"a", "b", 5⟩], none⟩ := by decide
  have h2 : step (Op.mine 4235414 "node-1" 1700000000)
      ⟨[⟨1, 0, [], "100", "1"⟩], [⟨"a", "b", 5⟩], none⟩
      = some ⟨[⟨1, 0, [], "100", "1"⟩,
          minedBlock 1 [⟨"a", "b", 5⟩] ⟨1, 0, [], "100", "1"⟩ p "node-1" 1700000000], [], none⟩ :=
    step_mine_of_search 4235414 "node-1" 1700000000 _ ⟨1, 0, [], "100", "1"⟩ p rfl hp
  have hrun : run [Op.newTransaction ⟨"a", "b", 5⟩, Op.mine 4235414 "node-1" 1700000000]
      (InitBlockchain 0) = some ⟨[⟨1, 0, [], "100", "1"⟩,
        minedBlock 1 [⟨"a", "b", 5⟩] ⟨1, 0, [], "100", "1"⟩ p "node-1" 1700000000], [], none⟩ := by
    rw [run_cons_of_step _ _ _ _ h1, run_cons_of_step _ _ _ _ h2]
    rfl
  refine ⟨_, ⟨1, 0, [], "100", "1"⟩, _, hrun, rfl, ?_⟩
  exact hash_linkage 0 _ _ (by decide) hrun 0 _ _ rfl rfl

/-- C2. Proof validity: in every ledger reached from `InitBlockchain` by a
sequence of `NewTransaction` calls and `Mine` requests that all return, each block
after the first carries a proof that `ValidProof` accepts against the proof of the
block before it. -/
theorem proof_validity (now : Int) (ops : List Op) (bc : Blockchain)
    (hops : ∀ o ∈ ops, Op.isTxOrMine o = true)
    (hrun : run ops (InitBlockchain now) = some bc) :
    ∀ (i : Nat) (a b : Block), bc.Chain[i]? = some a → bc.Chain[i + 1]? = some b →
      ValidProof a.Proof b.Proof = true := by
  have hinv := run_preserves (Linked fun a b => ValidProof a.Proof b.Proof = true)
    Op.isTxOrMine
    (Linked_step _ (fun tip fuel _ _ p _ _ hp => ProofOfWork_valid tip.Proof p fuel hp))
    ops (InitBlockchain now) bc hops (Linked_init _ now) hrun
  exact hinv.2

/-- Witness of C2: a mining request on the fresh ledger returns, a transaction
follows, and the proof of the mined block is valid against the genesis proof. -/
theorem proof_validity_witness :
    ∃ (bc : Blockchain) (g b : Block),
      run [Op.mine 5000000 "node-2" 1700000001, Op.newTransaction ⟨"c", "d", 9⟩]
        (InitBlockchain 3) = some bc ∧
      bc.Chain = [g, b] ∧ g.Proof = "100" ∧ ValidProof "100" b.Proof = true := by
  have hv : ValidProof "100" (decimal (4235413 : Nat)) = true := by decide
  obtain ⟨p, hp⟩ := ProofOfWork_returns "100" 4235413 5000000 (by omega) (by decide) hv
  have h1 : step (Op.mine 5000000 "node-2" 1700000001) (InitBlockchain 3)
      = some ⟨[⟨1, 3, [], "100", "1"⟩,
          minedBlock 1 [] ⟨1, 3, [], "100", "1"⟩ p "node-2" 1700000001], [], none⟩ :=
    step_mine_of_search 5000000 "node-2" 1700000001 _ ⟨1, 3, [], "100", "1"⟩ p rfl hp
  have hrun : run [Op.mine 5000000 "node-2" 1700000001, Op.newTransaction ⟨"c", "d", 9⟩]
      (InitBlockchain 3) = some ⟨[⟨1, 3, [], "100", "1"⟩,
        minedBlock 1 [] ⟨1, 3, [], "100", "1"⟩ p "node-2" 1700000001],
        [⟨"c", "d", 9⟩], none⟩ := by
    rw [run_cons_of_step _ _ _ _ h1]
    rfl
  refine ⟨_, ⟨1, 3, [], "100", "1"⟩, _, hrun, rfl, rfl, ?_⟩
  exact proof_validity 3 _ _ (by decide) hrun 0 ⟨1, 3, [], "100", "1"⟩ _ rfl rfl

set_option maxRecDepth 100000 in
/-- C3. `ValidProof` does not test the hexadecimal text of the digest. For the last
proof `100`, the candidate `6016` has a digest whose hexadecimal text begins with
three zeros and is rejected, and the candidate `4235413`, whose digest text begins
`303030`, is accepted. -/
theorem ValidProof_not_hex_zeros :
    ValidProofSpec "100" "6016" = true ∧ ValidProof "100" "6016" = false ∧
    ValidProof "100" "4235413" = true ∧ ValidProofSpec "100" "4235413" = false ∧
    (hexString (sha256.Sum256 (bytes ("100" ++ "4235413")))).take 6 = "303030" :=
  ⟨by decide, by decide, by decide, by decide, by decide⟩

/-- C4. `ProofOfWork` returns the least solution: what the search returns within
the first 2^63 candidates is the decimal text of a natural number `n` that
`ValidProof` accepts, and it rejects the decimal text of every smaller number. -/
theorem ProofOfWork_least (lastProof p : String) (fuel : Nat)
    (hfuel : (fuel : Int) ≤ 9223372036854775808)
    (h : ProofOfWork fuel lastProof = some p) :
    ∃ n : Nat, p = decimal (n : Int) ∧ ValidProof lastProof p = true ∧
      ∀ m : Nat, m < n → ValidProof lastProof (decimal (m : Int)) = false := by
  obtain ⟨n, _, _, h3, h4, h5⟩ := ProofOfWorkLoop_sound lastProof fuel 0 p
    (by push_cast; omega) h
  exact ⟨n, h3, h4, fun m hm => h5 m (Nat.zero_le m) hm⟩

/-- Witness of C4: for the last proof `6430682` the search returns `3`, after
rejecting `0`, `1` and `2`. -/
theorem ProofOfWork_least_witness :
    ProofOfWork 10 "6430682" = some "3" ∧
    ∃ n : Nat, "3" = decimal (n : Int) ∧ ValidProof "6430682" "3" = true ∧
      ∀ m : Nat, m < n → ValidProof "6430682" (decimal (m : Int)) = false :=
  ⟨by decide, ProofOfWork_least "6430682" "3" 10 (by decide) (by decide)⟩

/-- C5. Pending-pool flush: on a ledger with a non-empty chain and pending pool `P`,
a `Mine` request whose proof search returns completes without fault; afterwards the
pending pool is empty, the chain is the old chain with one more block, and that
block's transactions are `P` followed by the single reward transaction with sender
`0`, the node identifier as recipient and amount 20. -/
theorem Mine_flushes_pool (fuel : Nat) (nodeID : String) (now : Int) (bc : Blockchain)
    (tip : Block) (p : String) (htip : bc.Chain.getLast? = some tip)
    (hp : ProofOfWork fuel tip.Proof = some p) :
    ∃ (bc' : Blockchain) (blk : Block),
      Server.Mine fuel nodeID now bc = some (.ok (), bc') ∧
      bc'.Transactions = [] ∧
      bc'.Chain = bc.Chain ++ [blk] ∧
      bc'.Chain.length = bc.Chain.length + 1 ∧
      blk.Transactions = bc.Transactions ++ [⟨"0", nodeID, 20⟩] :=
  ⟨_, _, Mine_of_search fuel nodeID now bc tip p htip hp, rfl, rfl, by simp, rfl⟩

/-- Witness of C5: a ledger whose tip has proof `19540805`, for which the first
candidate `0` is valid, with two pending transactions. -/
theorem Mine_flushes_pool_witness :
    ∃ (bc' : Blockchain) (blk : Block),
      Server.Mine 1 "node-3" 1700000002
        ⟨[⟨1, 0, [], "19540805", "1"⟩], [⟨"a", "b", 5⟩, ⟨"b", "c", 2⟩], none⟩
        = some (.ok (), bc') ∧
      bc'.Transactions = [] ∧
      bc'.Chain = [⟨1, 0, [], "19540805", "1"⟩] ++ [blk] ∧
      bc'.Chain.length = 1 + 1 ∧
      blk.Transactions = [⟨"a", "b", 5⟩, ⟨"b", "c", 2⟩] ++ [⟨"0", "node-3", 20⟩] :=
  Mine_flushes_pool 1 "node-3" 1700000002
    ⟨[⟨1, 0, [], "19540805", "1"⟩], [⟨"a", "b", 5⟩, ⟨"b", "c", 2⟩], none⟩
    ⟨1, 0, [], "19540805", "1"⟩ "0" (by decide) (by decide)

/-- C6. `NewBlock` postcondition: on every ledger (whose chain, like every Go slice of
blocks, has fewer than 2^63 - 1 elements) and for every proof and previous hash,
valid or not, `NewBlock` appends exactly one block, whose index is the old chain
length plus one, whose transactions are the whole pending pool as it was, and whose
proof and previous hash are the arguments; it returns that block and leaves the
pending pool empty. -/
theorem NewBlock_postcondition (bc : Blockchain) (proof prevBlockHash : String) (now : Int)
    (hlen : bc.Chain.length + 1 < 9223372036854775808) :
    (bc.NewBlock proof prevBlockHash now).2.Chain
        = bc.Chain ++ [(bc.NewBlock proof prevBlockHash now).1] ∧
    (bc.NewBlock proof prevBlockHash now).1.Index = (bc.Chain.length : Int) + 1 ∧
    (bc.NewBlock proof prevBlockHash now).1.Transactions = bc.Transactions ∧
    (bc.NewBlock proof prevBlockHash now).1.Proof = proof ∧
    (bc.NewBlock proof prevBlockHash now).1.PrevBlockHash = prevBlockHash ∧
    (bc.NewBlock proof prevBlockHash now).1.Timestamp = now ∧
    (bc.NewBlock proof prevBlockHash now).2.Transactions = [] ∧
    (bc.NewBlock proof prevBlockHash now).2.Nodes = bc.Nodes := by
  refine ⟨rfl, ?_, rfl, rfl, rfl, rfl, rfl, rfl⟩
  show wrap64 ((bc.Chain.length : Int) + 1) = (bc.Chain.length : Int) + 1
  apply wrap64_of_range <;> omega

/-- Witness of C6: a block with an invalid proof and a made-up previous hash is
appended to a one-block ledger with one pending transaction. -/
theorem NewBlock_postcondition_witness :
    (Blockchain.NewBlock ⟨[⟨1, 0, [], "100", "1"⟩], [⟨"a", "b", 5⟩], none⟩ "no proof" "no hash" 42)
      = (⟨2, 42, [⟨"a", "b", 5⟩], "no proof", "no hash"⟩,
         ⟨[⟨1, 0, [], "100", "1"⟩, ⟨2, 42, [⟨"a", "b", 5⟩], "no proof", "no hash"⟩], [], none⟩) ∧
    (Blockchain.NewBlock ⟨[⟨1, 0, [], "100", "1"⟩], [⟨"a", "b", 5⟩], none⟩
      "no proof" "no hash" 42).1.Index = ((1 : Nat) : Int) + 1 :=
  ⟨by decide,
   (NewBlock_postcondition ⟨[⟨1, 0, [], "100", "1"⟩], [⟨"a", "b", 5⟩], none⟩
      "no proof" "no hash" 42 (by decide)).2.1⟩

/-- C7, as the code has it: on a ledger whose chain is non-empty and whose last block
has an index below the largest 64-bit integer, `NewTransaction` completes without
fault, leaves the pending pool equal to the old pool with the transaction appended
last, leaves the chain and the peer map unchanged, and returns the index of the last
block plus one. -/
theorem NewTransaction_on_nonempty_chain (bc : Blockchain) (tx : Transaction) (tip : Block)
    (htip : bc.Chain.getLast? = some tip)
    (hlo : -9223372036854775808 ≤ tip.Index) (hhi : tip.Index < 9223372036854775807) :
    (bc.NewTransaction tx).1 = .ok (tip.Index + 1) ∧
    (bc.NewTransaction tx).2.Transactions = bc.Transactions ++ [tx] ∧
    (bc.NewTransaction tx).2.Chain = bc.Chain ∧
    (bc.NewTransaction tx).2.Nodes = bc.Nodes := by
  rw [NewTransaction_snd, NewTransaction_fst bc tx tip htip,
    wrap64_of_range (tip.Index + 1) (by omega) (by omega)]
  exact ⟨rfl, rfl, rfl, rfl⟩

/-- Witness of C7 as amended: a transaction submitted to a two-block ledger. -/
theorem NewTransaction_on_nonempty_chain_witness :
    (Blockchain.NewTransaction
      ⟨[⟨1, 0, [], "100", "1"⟩, ⟨2, 9, [], "35", "aa"⟩], [⟨"a", "b", 5⟩], none⟩ ⟨"c", "d", 7⟩).1
      = .ok (2 + 1) ∧
    (Blockchain.NewTransaction
      ⟨[⟨1, 0, [], "100", "1"⟩, ⟨2, 9, [], "35", "aa"⟩], [⟨"a", "b", 5⟩], none⟩
      ⟨"c", "d", 7⟩).2.Transactions = [⟨"a", "b", 5⟩] ++ [⟨"c", "d", 7⟩] :=
  have h := NewTransaction_on_nonempty_chain
    ⟨[⟨1, 0, [], "100", "1"⟩, ⟨2, 9, [], "35", "aa"⟩], [⟨"a", "b", 5⟩], none⟩ ⟨"c", "d", 7⟩
    ⟨2, 9, [], "35", "aa"⟩ (by decide) (by decide) (by decide)
  ⟨h.1, h.2.1⟩

/-- Counterexample to C7 as stated: on the zero-valued ledger, whose chain is empty,
`NewTransaction` faults with an index out of range after it has appended the
transaction; and when the last block carries the largest 64-bit index the value
returned is the smallest 64-bit integer, not the index plus one. -/
theorem NewTransaction_counterexample :
    Blockchain.NewTransaction ⟨[], [], none⟩ ⟨"a", "b", 5⟩
      = (.error .indexOutOfRange, ⟨[], [⟨"a", "b", 5⟩], none⟩) ∧
    (Blockchain.NewTransaction ⟨[⟨9223372036854775807, 0, [], "100", "1"⟩], [], none⟩
      ⟨"a", "b", 5⟩).1 = .ok (-9223372036854775808) :=
  ⟨rfl, rfl⟩

/-- C8. The index returned by `NewTransaction` is the index of the block the
transaction ends up in: on every ledger reached from `InitBlockchain` by
`NewTransaction`, `NewBlock` and `Mine`, a call `NewTransaction(tx)` returns some `k`
without fault, and after any further `NewTransaction` calls the next block, whether
appended by `NewBlock` with any arguments or by a `Mine` request whose proof search
returns, has index `k` and contains `tx`. -/
theorem NewTransaction_index_is_block_index (now : Int) (ops : List Op) (bc : Blockchain)
    (hops : ∀ o ∈ ops, Op.isChainOp o = true)
    (hrun : run ops (InitBlockchain now) = some bc)
    (tx : Transaction) (txs : List Transaction) :
    ∃ (k : Int) (bc2 : Blockchain) (tip : Block),
      (bc.NewTransaction tx).1 = .ok k ∧
      run (txs.map Op.newTransaction) (bc.NewTransaction tx).2 = some bc2 ∧
      bc2.Chain.getLast? = some tip ∧
      (∀ (proof prevBlockHash : String) (now' : Int),
        (bc2.NewBlock proof prevBlockHash now').2.Chain
          = bc2.Chain ++ [(bc2.NewBlock proof prevBlockHash now').1] ∧
        (bc2.NewBlock proof prevBlockHash now').1.Index = k ∧
        tx ∈ (bc2.NewBlock proof prevBlockHash now').1.Transactions) ∧
      (∀ (fuel : Nat) (nodeID : String) (now' : Int) (p : String),
        ProofOfWork fuel tip.Proof = some p →
        ∃ (bc3 : Blockchain) (blk : Block),
          Server.Mine fuel nodeID now' bc2 = some (.ok (), bc3) ∧
          bc3.Chain = bc2.Chain ++ [blk] ∧ blk.Index = k ∧ tx ∈ blk.Transactions) := by
  have hnum : Numbered bc := Numbered_run Op.isChainOp now ops bc hops hrun
  obtain ⟨tip, htip⟩ := exists_tip bc hnum.1
  have hk : wrap64 (tip.Index + 1) = wrap64 ((bc.Chain.length : Int) + 1) := by
    rw [Numbered_tip bc tip hnum htip, wrap64_succ]
  refine ⟨wrap64 (tip.Index + 1), _, tip, NewTransaction_fst bc tx tip htip,
    run_newTransactions txs _, ?_, ?_, ?_⟩
  · rw [NewTransaction_snd]; exact htip
  · intro proof prevBlockHash now'
    refine ⟨rfl, ?_, ?_⟩
    · rw [hk, NewTransaction_snd]; rfl
    · rw [NewTransaction_snd]; simp [Blockchain.NewBlock]
  · intro fuel nodeID now' p hp
    refine ⟨_, _, Mine_of_search fuel nodeID now' _ tip p ?_ hp, rfl, ?_, ?_⟩
    · rw [NewTransaction_snd]; exact htip
    · rw [hk, NewTransaction_snd]; rfl
    · rw [NewTransaction_snd]; simp [minedBlock]

/-- Witness of C8: after a transaction and a block on the fresh ledger, a new
transaction is told 3, and the third block holds it. -/
theorem NewTransaction_index_is_block_index_witness :
    (Blockchain.NewTransaction
      ⟨[⟨1, 0, [], "100", "1"⟩, ⟨2, 5, [⟨"x", "y", 1⟩], "7", "h"⟩], [], none⟩ ⟨"a", "b", 5⟩).1
      = .ok 3 ∧
    ∃ (k : Int) (bc2 : Blockchain) (tip : Block),
      (Blockchain.NewTransaction
        ⟨[⟨1, 0, [], "100", "1"⟩, ⟨2, 5, [⟨"x", "y", 1⟩], "7", "h"⟩], [], none⟩
        ⟨"a", "b", 5⟩).1 = .ok k ∧
      run ([⟨"c", "d", 1⟩].map Op.newTransaction)
        (Blockchain.NewTransaction
          ⟨[⟨1, 0, [], "100", "1"⟩, ⟨2, 5, [⟨"x", "y", 1⟩], "7", "h"⟩], [], none⟩
          ⟨"a", "b", 5⟩).2 = some bc2 ∧
      bc2.Chain.getLast? = some tip ∧
      (∀ (proof prevBlockHash : String) (now' : Int),
        (bc2.NewBlock proof prevBlockHash now').2.Chain
          = bc2.Chain ++ [(bc2.NewBlock proof prevBlockHash now').1] ∧
        (bc2.NewBlock proof prevBlockHash now').1.Index = k ∧
        (⟨"a", "b", 5⟩ : Transaction) ∈ (bc2.NewBlock proof prevBlockHash now').1.Transactions) ∧
      (∀ (fuel : Nat) (nodeID : String) (now' : Int) (p : String),
        ProofOfWork fuel tip.Proof = some p →
        ∃ (bc3 : Blockchain) (blk : Block),
          Server.Mine fuel nodeID now' bc2 = some (.ok (), bc3) ∧
          bc3.Chain = bc2.Chain ++ [blk] ∧ blk.Index = k ∧
          (⟨"a", "b", 5⟩ : Transaction) ∈ blk.Transactions) :=
  ⟨rfl, NewTransaction_index_is_block_index 0
    [Op.newTransaction ⟨"x", "y", 1⟩, Op.newBlock "7" "h" 5]
    ⟨[⟨1, 0, [], "100", "1"⟩, ⟨2, 5, [⟨"x", "y", 1⟩], "7", "h"⟩], [], none⟩
    (by decide) (by decide) ⟨"a", "b", 5⟩ [⟨"c", "d", 1⟩]⟩

/-- C9. Index contiguity: in every ledger reached from `InitBlockchain` by any
sequence of `NewTransaction`, `NewBlock` (with any arguments) and `Mine`, and whose
chain has fewer than 2^63 blocks, the block at 0-based position `i` has index
`i + 1`; hence the first index is 1 and each block's index is its predecessor's
plus one. -/
theorem index_contiguity (now : Int) (ops : List Op) (bc : Blockchain)
    (hops : ∀ o ∈ ops, Op.isChainOp o = true)
    (hrun : run ops (InitBlockchain now) = some bc)
    (hlen : bc.Chain.length < 9223372036854775808) :
    (∀ (i : Nat) (b : Block), bc.Chain[i]? = some b → b.Index = (i : Int) + 1) ∧
    (∃ b, bc.Chain[0]? = some b ∧ b.Index = 1) ∧
    (∀ (i : Nat) (a b : Block), bc.Chain[i]? = some a → bc.Chain[i + 1]? = some b →
      b.Index = a.Index + 1) := by
  have hnum : Numbered bc := Numbered_run Op.isChainOp now ops bc hops hrun
  have hpos : ∀ (i : Nat) (b : Block), bc.Chain[i]? = some b → b.Index = (i : Int) + 1 := by
    intro i b hb
    have hi : i < bc.Chain.length := by
      by_contra hcon
      rw [List.getElem?_eq_none (by omega)] at hb
      cases hb
    rw [hnum.2 i b hb]
    apply wrap64_of_range <;> omega
  refine ⟨hpos, ?_, ?_⟩
  · have h0 : 0 < bc.Chain.length := List.length_pos.mpr hnum.1
    refine ⟨bc.Chain[0], by simp [List.getElem?_eq_getElem h0], ?_⟩
    have := hpos 0 bc.Chain[0] (by simp [List.getElem?_eq_getElem h0])
    simpa using this
  · intro i a b ha hb
    rw [hpos i a ha, hpos (i + 1) b hb]
    push_cast; ring

/-- Witness of C9: the chain after a transaction, a block with made-up arguments, and
another such block, has indices 1, 2, 3. -/
theorem index_contiguity_witness :
    run [Op.newTransaction ⟨"a", "b", 5⟩, Op.newBlock "7" "h" 5, Op.newBlock "8" "i" 6]
      (InitBlockchain 0)
      = some ⟨[⟨1, 0, [], "100", "1"⟩, ⟨2, 5, [⟨"a", "b", 5⟩], "7", "h"⟩, ⟨3, 6, [], "8", "i"⟩],
          [], none⟩ ∧
    ∀ (i : Nat) (b : Block),
      ([⟨1, 0, [], "100", "1"⟩, ⟨2, 5, [⟨"a", "b", 5⟩], "7", "h"⟩, ⟨3, 6, [], "8", "i"⟩]
        : List Block)[i]? = some b → b.Index = (i : Int) + 1 :=
  ⟨by decide,
   (index_contiguity 0
      [Op.newTransaction ⟨"a", "b", 5⟩, Op.newBlock "7" "h" 5, Op.newBlock "8" "i" 6]
      ⟨[⟨1, 0, [], "100", "1"⟩, ⟨2, 5, [⟨"a", "b", 5⟩], "7", "h"⟩, ⟨3, 6, [], "8", "i"⟩],
        [], none⟩
      (by decide) (by decide) (by decide)).1⟩

/-- C10. Genesis state: the ledger returned by `InitBlockchain` has a chain of exactly
one block, with index 1, proof `100`, previous hash `1` and no transactions, and an
empty pending pool; the first `NewTransaction` on it returns 2 and leaves its
transaction as the only one pending. -/
theorem genesis_state (now : Int) (tx : Transaction) :
    (InitBlockchain now).Chain = [⟨1, now, [], "100", "1"⟩] ∧
    (InitBlockchain now).Chain.length = 1 ∧
    (InitBlockchain now).Transactions = [] ∧
    (InitBlockchain now).NewTransaction tx
      = (.ok 2, ⟨[⟨1, now, [], "100", "1"⟩], [tx], none⟩) :=
  ⟨rfl, rfl, rfl, rfl⟩

/-- C11, on the code: `InitBlockchain` leaves the peer map nil and no operation
allocates it, so on the fresh ledger and on every ledger reached from it `RegNode`
faults with a write to a nil map, for every address and on every call, and leaves the
ledger as it was. -/
theorem RegNode_faults_after_init (now : Int) (ops : List Op) (bc : Blockchain)
    (addr : String) (hrun : run ops (InitBlockchain now) = some bc) :
    bc.Nodes = none ∧ bc.RegNode addr = (.error .nilMapAssign, bc) := by
  have hn : bc.Nodes = none :=
    run_preserves (fun s => s.Nodes = none) (fun _ => true)
      (fun o s s' _ h hs => Nodes_none_step o s s' h hs)
      ops (InitBlockchain now) bc (fun _ _ => rfl) rfl hrun
  exact ⟨hn, by simp [Blockchain.RegNode, hn]⟩

/-- Witness of C11: the first registration on the fresh ledger faults, and so does a
registration after a transaction and a block. -/
theorem RegNode_faults_after_init_witness :
    Blockchain.RegNode (InitBlockchain 0) "peer-1"
      = (.error .nilMapAssign, InitBlockchain 0) ∧
    Blockchain.RegNode
      ⟨[⟨1, 0, [], "100", "1"⟩, ⟨2, 5, [⟨"a", "b", 5⟩], "7", "h"⟩], [], none⟩ "peer-1"
      = (.error .nilMapAssign,
         ⟨[⟨1, 0, [], "100", "1"⟩, ⟨2, 5, [⟨"a", "b", 5⟩], "7", "h"⟩], [], none⟩) :=
  ⟨(RegNode_faults_after_init 0 [] (InitBlockchain 0) "peer-1" rfl).2,
   (RegNode_faults_after_init 0
      [Op.regNode "peer-1", Op.newTransaction ⟨"a", "b", 5⟩, Op.newBlock "7" "h" 5]
      ⟨[⟨1, 0, [], "100", "1"⟩, ⟨2, 5, [⟨"a", "b", 5⟩], "7", "h"⟩], [], none⟩
      "peer-1" (by decide)).2⟩

/-- C12. Set-insert semantics of `RegNode`: on a ledger whose peer map is allocated,
`RegNode(a)` completes without fault and returns true exactly when `a` was not a key
before; afterwards `a` is a key, every other address has the entry it had, an
immediate second `RegNode(a)` returns false and leaves the ledger as it is, and the
chain and the pending pool are those of before. -/
theorem RegNode_set_insert (bc : Blockchain) (m : List (String × Bool)) (a : String)
    (hm : bc.Nodes = some m) :
    (bc.RegNode a).1 = .ok (!bc.hasNode a) ∧
    ((bc.RegNode a).1 = .ok true ↔ bc.hasNode a = false) ∧
    (bc.RegNode a).2.hasNode a = true ∧
    (∀ a' : String, a' ≠ a → (bc.RegNode a).2.lookupNode a' = bc.lookupNode a') ∧
    (bc.RegNode a).2.RegNode a = (.ok false, (bc.RegNode a).2) ∧
    (bc.RegNode a).2.Chain = bc.Chain ∧
    (bc.RegNode a).2.Transactions = bc.Transactions := by
  have h1 : bc.RegNode a = (.ok (!bc.hasNode a),
      { bc with Nodes := some ((a, true) :: m.filter fun e => e.1 ≠ a) }) := by
    simp [Blockchain.RegNode, Blockchain.hasNode, hm]
  rw [h1]
  refine ⟨rfl, ?_, ?_, ?_, ?_, rfl, rfl⟩
  · cases bc.hasNode a <;> simp
  · simp [Blockchain.hasNode, Blockchain.lookupNode, List.lookup]
  · intro a' hne
    have hne' : (a' == a) = false := by simpa using hne
    simp only [Blockchain.lookupNode, hm, List.lookup, hne']
    exact lookup_filter_ne m a a' hne
  · simp only [Blockchain.RegNode, Blockchain.lookupNode, List.lookup, beq_self_eq_true,
      Option.isSome_some, Bool.not_true]
    have hf : (List.filter (fun e => decide (e.1 ≠ a)) ((a, true) :: m.filter fun e => e.1 ≠ a))
        = m.filter fun e => e.1 ≠ a := by
      rw [List.filter_cons_of_neg (by simp), filter_ne_idem]
    rw [hf]

/-- Witness of C12: a new address and then a known one on a ledger with an
allocated peer map holding one address. -/
theorem RegNode_set_insert_witness :
    Blockchain.RegNode ⟨[⟨1, 0, [], "100", "1"⟩], [], some [("peer-1", true)]⟩ "peer-2"
      = (.ok true, ⟨[⟨1, 0, [], "100", "1"⟩], [], some [("peer-2", true), ("peer-1", true)]⟩) ∧
    (Blockchain.RegNode ⟨[⟨1, 0, [], "100", "1"⟩], [], some [("peer-1", true)]⟩ "peer-1").1
      = .ok (!Blockchain.hasNode ⟨[⟨1, 0, [], "100", "1"⟩], [], some [("peer-1", true)]⟩ "peer-1") :=
  ⟨rfl, (RegNode_set_insert ⟨[⟨1, 0, [], "100", "1"⟩], [], some [("peer-1", true)]⟩
    [("peer-1", true)] "peer-1" rfl).1⟩

/-- C13. Non-empty chain invariant: every ledger reached from `InitBlockchain` by
any sequence of `NewTransaction`, `NewBlock`, `Mine` and `LastBlock` has a non-empty
chain, so on it `LastBlock` returns a block, `NewTransaction` returns an index, and
a `Mine` request that returns does so without fault. -/
theorem chain_never_empty (now : Int) (ops : List Op) (bc : Blockchain)
    (hops : ∀ o ∈ ops, Op.isChainOrTipOp o = true)
    (hrun : run ops (InitBlockchain now) = some bc) :
    bc.Chain ≠ [] ∧ 0 < bc.Chain.length ∧
    (∃ tip, bc.LastBlock = .ok tip) ∧
    (∀ tx : Transaction, ∃ k, (bc.NewTransaction tx).1 = .ok k) ∧
    (∀ (fuel : Nat) (nodeID : String) (now' : Int) (r : Except Fault Unit)
      (bc' : Blockchain), Server.Mine fuel nodeID now' bc = some (r, bc') → r = .ok ()) := by
  have hnum : Numbered bc := Numbered_run Op.isChainOrTipOp now ops bc hops hrun
  obtain ⟨tip, htip⟩ := exists_tip bc hnum.1
  refine ⟨hnum.1, List.length_pos.mpr hnum.1, ⟨tip, LastBlock_of_getLast? bc tip htip⟩, ?_, ?_⟩
  · intro tx
    exact ⟨_, NewTransaction_fst bc tx tip htip⟩
  · intro fuel nodeID now' r bc' hm
    cases hp : ProofOfWork fuel tip.Proof with
    | none => simp [Server.Mine, Blockchain.LastBlock, htip, hp] at hm
    | some p =>
      rw [Mine_of_search fuel nodeID now' bc tip p htip hp] at hm
      exact ((Prod.mk.inj (Option.some.inj hm)).1).symm

/-- Witness of C13: after a tip query, a transaction, a block and another tip query
the chain has two blocks and `LastBlock` returns the second. -/
theorem chain_never_empty_witness :
    run [Op.lastBlock, Op.newTransaction ⟨"a", "b", 5⟩, Op.newBlock "7" "h" 5, Op.lastBlock]
      (InitBlockchain 0)
      = some ⟨[⟨1, 0, [], "100", "1"⟩, ⟨2, 5, [⟨"a", "b", 5⟩], "7", "h"⟩], [], none⟩ ∧
    (⟨[⟨1, 0, [], "100", "1"⟩, ⟨2, 5, [⟨"a", "b", 5⟩], "7", "h"⟩], [], none⟩ : Blockchain).Chain
      ≠ [] :=
  ⟨by decide,
   (chain_never_empty 0
      [Op.lastBlock, Op.newTransaction ⟨"a", "b", 5⟩, Op.newBlock "7" "h" 5, Op.lastBlock]
      ⟨[⟨1, 0, [], "100", "1"⟩, ⟨2, 5, [⟨"a", "b", 5⟩], "7", "h"⟩], [], none⟩
      (by decide) (by decide)).1⟩

/-- C14. `LastBlock` returns the tip and fails exactly on an empty chain: on every
ledger it faults if and only if the chain is empty; otherwise it returns the last
element of the chain; it leaves the ledger as it is; and right after `NewBlock` it
returns the block `NewBlock` returned. -/
theorem LastBlock_returns_tip (bc : Blockchain) :
    ((∃ e, bc.LastBlock = .error e) ↔ bc.Chain = []) ∧
    (bc.Chain = [] → bc.LastBlock = .error .indexOutOfRange) ∧
    (∀ b : Block, bc.Chain.getLast? = some b → bc.LastBlock = .ok b) ∧
    (bc.Chain ≠ [] → ∃ b, bc.Chain.getLast? = some b ∧ bc.LastBlock = .ok b) ∧
    step Op.lastBlock bc = some bc ∧
    (∀ (p h : String) (now : Int),
      (bc.NewBlock p h now).2.LastBlock = .ok (bc.NewBlock p h now).1) := by
  refine ⟨?_, ?_, fun b hb => LastBlock_of_getLast? bc b hb, ?_, rfl, ?_⟩
  · constructor
    · rintro ⟨e, he⟩
      by_contra hne
      obtain ⟨tip, htip⟩ := exists_tip bc hne
      rw [LastBlock_of_getLast? bc tip htip] at he
      cases he
    · intro hnil
      exact ⟨.indexOutOfRange, by simp [Blockchain.LastBlock, hnil]⟩
  · intro hnil
    simp [Blockchain.LastBlock, hnil]
  · intro hne
    obtain ⟨tip, htip⟩ := exists_tip bc hne
    exact ⟨tip, htip, LastBlock_of_getLast? bc tip htip⟩
  · intro p h now
    apply LastBlock_of_getLast?
    simp [Blockchain.NewBlock]

/-- C15. Digest format: for every block, `Hash` is the lowercase hexadecimal
rendering of the 32-byte SHA-256 digest of the block's JSON serialisation: a string of
exactly 64 characters, each one of `0`-`9` or `a`-`f`; in particular it is never the
genesis placeholder `1`. -/
theorem Hash_format (b : Block) :
    Hash b = hexString (sha256.Sum256 (jsonBlock b)) ∧
    (sha256.Sum256 (jsonBlock b)).length = 32 ∧
    (Hash b).length = 64 ∧
    (∀ c ∈ (Hash b).toList, c ∈ "0123456789abcdef".toList) ∧
    Hash b ≠ "1" := by
  have hlen : (Hash b).length = 64 := by
    rw [Hash, hexString_length, Sum256_length]
  refine ⟨rfl, Sum256_length _, hlen, hexString_chars _, ?_⟩
  intro h
  rw [h] at hlen
  exact absurd hlen (by decide)

/-- C17, as the code has it: for every ledger state and every operation that
returns, the chain before is the beginning of the chain after, every existing block
staying as it was; `NewTransaction`, `RegNode` and `LastBlock` leave the length
unchanged, `NewBlock` increases it by exactly one, and so does `Mine` when the chain
is not empty. -/
theorem chain_append_only (o : Op) (bc bc' : Blockchain) (hs : step o bc = some bc') :
    (∃ added : List Block, bc'.Chain = bc.Chain ++ added) ∧
    (∀ (i : Nat) (b : Block), bc.Chain[i]? = some b → bc'.Chain[i]? = some b) ∧
    bc'.Chain.length = bc.Chain.length + (match o with
      | .newBlock _ _ _ => 1
      | .mine _ _ _ => if bc.Chain.isEmpty then 0 else 1
      | _ => 0) := by
  obtain ⟨added, hch, hlen⟩ := step_chain o bc bc' hs
  refine ⟨⟨added, hch⟩, ?_, by rw [hch, List.length_append, hlen]⟩
  intro i b hb
  rw [hch, List.getElem?_append_left]
  · exact hb
  · by_contra hcon
    rw [List.getElem?_eq_none (by omega)] at hb
    cases hb

/-- Witness of C17 as amended: a mining request on a ledger whose tip has proof
`19540805` returns and leaves a chain that begins with the old one and is one
block longer. -/
theorem chain_append_only_witness :
    step (Op.mine 1 "node-4" 9) ⟨[⟨1, 0, [], "19540805", "1"⟩], [⟨"a", "b", 5⟩], none⟩
      = some ⟨[⟨1, 0, [], "19540805", "1"⟩,
          minedBlock 1 [⟨"a", "b", 5⟩] ⟨1, 0, [], "19540805", "1"⟩ "0" "node-4" 9], [], none⟩ ∧
    ([⟨1, 0, [], "19540805", "1"⟩,
        minedBlock 1 [⟨"a", "b", 5⟩] ⟨1, 0, [], "19540805", "1"⟩ "0" "node-4" 9]
      : List Block).length = 1 + 1 :=
  have hs : step (Op.mine 1 "node-4" 9)
      ⟨[⟨1, 0, [], "19540805", "1"⟩], [⟨"a", "b", 5⟩], none⟩
      = some ⟨[⟨1, 0, [], "19540805", "1"⟩,
          minedBlock 1 [⟨"a", "b", 5⟩] ⟨1, 0, [], "19540805", "1"⟩ "0" "node-4" 9], [], none⟩ :=
    step_mine_of_search 1 "node-4" 9 _ ⟨1, 0, [], "19540805", "1"⟩ "0" rfl (by decide)
  ⟨hs, (chain_append_only _ _ _ hs).2.2⟩

/-- Counterexample to C17 as stated: on the zero-valued ledger, whose chain is empty,
a `Mine` request faults with an index out of range and the chain keeps length 0. -/
theorem Mine_on_empty_chain :
    Server.Mine 1 "node-4" 9 ⟨[], [], none⟩
      = some (.error .indexOutOfRange, ⟨[], [], none⟩) ∧
    step (Op.mine 1 "node-4" 9) ⟨[], [], none⟩ = some ⟨[], [], none⟩ ∧
    (⟨[], [], none⟩ : Blockchain).Chain.length = 0 :=
  ⟨rfl, rfl, rfl⟩

/-- C18, as the code has it: in every ledger reached from `InitBlockchain` by
`Mine` requests and `NewTransaction` calls none of which carries a negative amount,
every transaction in the pending pool and in every block of the chain has an amount
of at least zero. -/
theorem amounts_nonnegative (now : Int) (ops : List Op) (bc : Blockchain)
    (hops : ∀ o ∈ ops, Op.isNonnegTxOrMine o = true)
    (hrun : run ops (InitBlockchain now) = some bc) :
    (∀ t ∈ bc.Transactions, 0 ≤ t.Amount) ∧
    (∀ b ∈ bc.Chain, ∀ t ∈ b.Transactions, 0 ≤ t.Amount) :=
  run_preserves NonnegAmounts Op.isNonnegTxOrMine NonnegAmounts_step ops (InitBlockchain now) bc
    hops ⟨by simp [InitBlockchain, Blockchain.NewBlock],
          by simp [InitBlockchain, Blockchain.NewBlock]⟩ hrun

/-- Witness of C18 as amended: two transactions with amounts 5 and 0. -/
theorem amounts_nonnegative_witness :
    run [Op.newTransaction ⟨"a", "b", 5⟩, Op.newTransaction ⟨"b", "c", 0⟩] (InitBlockchain 0)
      = some ⟨[⟨1, 0, [], "100", "1"⟩], [⟨"a", "b", 5⟩, ⟨"b", "c", 0⟩], none⟩ ∧
    ∀ t ∈ ([⟨"a", "b", 5⟩, ⟨"b", "c", 0⟩] : List Transaction), 0 ≤ t.Amount :=
  ⟨by decide,
   (amounts_nonnegative 0
      [Op.newTransaction ⟨"a", "b", 5⟩, Op.newTransaction ⟨"b", "c", 0⟩]
      ⟨[⟨1, 0, [], "100", "1"⟩], [⟨"a", "b", 5⟩, ⟨"b", "c", 0⟩], none⟩
      (by decide) (by decide)).1⟩

/-- Counterexample to C18 as stated: `NewTransaction` admits a transaction with
amount -5 on the fresh ledger, and the pending pool then holds it. -/
theorem negative_amount_admitted :
    Blockchain.NewTransaction (InitBlockchain 0) ⟨"a", "b", -5⟩
      = (.ok 2, ⟨[⟨1, 0, [], "100", "1"⟩], [⟨"a", "b", -5⟩], none⟩) ∧
    run [Op.newTransaction ⟨"a", "b", -5⟩] (InitBlockchain 0)
      = some ⟨[⟨1, 0, [], "100", "1"⟩], [⟨"a", "b", -5⟩], none⟩ ∧
    (⟨"a", "b", -5⟩ : Transaction).Amount < 0 :=
  ⟨rfl, by decide, by decide⟩

/-- C19. Proofs do not depend on block content: two runs that start from
`InitBlockchain` and serve the same number of `Mine` requests, interleaved with any
`NewTransaction` calls, timestamps, node identifiers and search bounds, end with
chains that carry the same proof at each position; the first proof is `100` and each
later one is what `ProofOfWork` returns for the proof before it. -/
theorem proofs_independent_of_content (now1 now2 : Int) (ops1 ops2 : List Op)
    (bc1 bc2 : Blockchain)
    (hops1 : ∀ o ∈ ops1, Op.isTxOrMine o = true)
    (hops2 : ∀ o ∈ ops2, Op.isTxOrMine o = true)
    (hrun1 : run ops1 (InitBlockchain now1) = some bc1)
    (hrun2 : run ops2 (InitBlockchain now2) = some bc2)
    (hmines : (ops1.filter Op.isMine).length = (ops2.filter Op.isMine).length) :
    bc1.Chain.map Block.Proof = bc2.Chain.map Block.Proof ∧
    (∃ g, bc1.Chain[0]? = some g ∧ g.Proof = "100") ∧
    (∀ (i : Nat) (a b : Block), bc1.Chain[i]? = some a → bc1.Chain[i + 1]? = some b →
      ∃ fuel, ProofOfWork fuel a.Proof = some b.Proof) := by
  have hlink : ∀ (now : Int) (ops : List Op) (bc : Blockchain),
      (∀ o ∈ ops, Op.isTxOrMine o = true) → run ops (InitBlockchain now) = some bc →
      ∀ (i : Nat) (a b : Block), bc.Chain[i]? = some a → bc.Chain[i + 1]? = some b →
        ∃ fuel, ProofOfWork fuel a.Proof = some b.Proof := by
    intro now ops bc hops hrun
    exact (run_preserves
      (Linked fun a b => ∃ fuel, ProofOfWork fuel a.Proof = some b.Proof) Op.isTxOrMine
      (Linked_step _ (fun _ fuel _ _ _ _ _ hp => ⟨fuel, hp⟩))
      ops (InitBlockchain now) bc hops (Linked_init _ now) hrun).2
  have hgen : ∀ (now : Int) (ops : List Op) (bc : Blockchain),
      run ops (InitBlockchain now) = some bc → GenesisProof bc := by
    intro now ops bc hrun
    exact run_preserves GenesisProof (fun _ => true)
      (fun o s s' _ h hs => GenesisProof_step o s s' h hs)
      ops (InitBlockchain now) bc (fun _ _ => rfl) ⟨_, rfl, rfl⟩ hrun
  have hlen1 := run_length ops1 (InitBlockchain now1) bc1 hops1
    (by simp [InitBlockchain, Blockchain.NewBlock]) hrun1
  have hlen2 := run_length ops2 (InitBlockchain now2) bc2 hops2
    (by simp [InitBlockchain, Blockchain.NewBlock]) hrun2
  have hlen : bc1.Chain.length = bc2.Chain.length := by
    rw [hlen1, hlen2, hmines]; rfl
  obtain ⟨g1, hg1, hp1⟩ := hgen now1 ops1 bc1 hrun1
  obtain ⟨g2, hg2, hp2⟩ := hgen now2 ops2 bc2 hrun2
  have hagree := proofs_agree bc1.Chain bc2.Chain
    (by
      intro a b ha hb
      rw [hg1] at ha; rw [hg2] at hb
      rw [← Option.some.inj ha, ← Option.some.inj hb, hp1, hp2])
    (hlink now1 ops1 bc1 hops1 hrun1) (hlink now2 ops2 bc2 hops2 hrun2)
  refine ⟨?_, ⟨g1, hg1, hp1⟩, hlink now1 ops1 bc1 hops1 hrun1⟩
  apply List.ext_getElem?
  intro i
  rw [List.getElem?_map, List.getElem?_map]
  by_cases hi : i < bc1.Chain.length
  · have hi2 : i < bc2.Chain.length := hlen ▸ hi
    rw [List.getElem?_eq_getElem hi, List.getElem?_eq_getElem hi2]
    simp only [Option.map_some']
    rw [hagree i _ _ (List.getElem?_eq_getElem hi) (List.getElem?_eq_getElem hi2)]
  · rw [List.getElem?_eq_none (by omega), List.getElem?_eq_none (by omega)]

/-- Witness of C19: two runs with one mining request each, with different
transactions, timestamps, node identifiers and search bounds, both return and agree
on the proofs of their two blocks. -/
theorem proofs_independent_of_content_witness :
    ∃ (bc1 bc2 : Blockchain),
      run [Op.newTransaction ⟨"a", "b", 5⟩, Op.mine 4235414 "node-1" 1700000000]
        (InitBlockchain 0) = some bc1 ∧
      run [Op.mine 5000000 "node-2" 1700000001, Op.newTransaction ⟨"c", "d", 9⟩]
        (InitBlockchain 3) = some bc2 ∧
      bc1.Chain.length = 2 ∧ bc2.Chain.length = 2 ∧
      bc1.Chain.map Block.Proof = bc2.Chain.map Block.Proof := by
  have hv : ValidProof "100" (decimal (4235413 : Nat)) = true := by decide
  obtain ⟨p, hp⟩ := ProofOfWork_returns "100" 4235413 4235414 (by omega) (by decide) hv
  obtain ⟨q, hq⟩ := ProofOfWork_returns "100" 4235413 5000000 (by omega) (by decide) hv
  have a1 : step (Op.newTransaction ⟨"a", "b", 5⟩) (InitBlockchain 0)
      = some ⟨[⟨1, 0, [], "100", "1"⟩], [⟨"a", "b", 5⟩], none⟩ := by decide
  have a2 : step (Op.mine 4235414 "node-1" 1700000000)
      ⟨[⟨1, 0, [], "100", "1"⟩], [⟨"a", "b", 5⟩], none⟩
      = some ⟨[⟨1, 0, [], "100", "1"⟩,
          minedBlock 1 [⟨"a", "b", 5⟩] ⟨1, 0, [], "100", "1"⟩ p "node-1" 1700000000], [], none⟩ :=
    step_mine_of_search 4235414 "node-1" 1700000000 _ ⟨1, 0, [], "100", "1"⟩ p rfl hp
  have b1 : step (Op.mine 5000000 "node-2" 1700000001) (InitBlockchain 3)
      = some ⟨[⟨1, 3, [], "100", "1"⟩,
          minedBlock 1 [] ⟨1, 3, [], "100", "1"⟩ q "node-2" 1700000001], [], none⟩ :=
    step_mine_of_search 5000000 "node-2" 1700000001 _ ⟨1, 3, [], "100", "1"⟩ q rfl hq
  have hr1 : run [Op.newTransaction ⟨"a", "b", 5⟩, Op.mine 4235414 "node-1" 1700000000]
      (InitBlockchain 0) = some ⟨[⟨1, 0, [], "100", "1"⟩,
        minedBlock 1 [⟨"a", "b", 5⟩] ⟨1, 0, [], "100", "1"⟩ p "node-1" 1700000000], [], none⟩ := by
    rw [run_cons_of_step _ _ _ _ a1, run_cons_of_step _ _ _ _ a2]
    rfl
  have hr2 : run [Op.mine 5000000 "node-2" 1700000001, Op.newTransaction ⟨"c", "d", 9⟩]
      (InitBlockchain 3) = some ⟨[⟨1, 3, [], "100", "1"⟩,
        minedBlock 1 [] ⟨1, 3, [], "100", "1"⟩ q "node-2" 1700000001],
        [⟨"c", "d", 9⟩], none⟩ := by
    rw [run_cons_of_step _ _ _ _ b1]
    rfl
  exact ⟨_, _, hr1, hr2, rfl, rfl,
    (proofs_independent_of_content 0 3 _ _ _ _ (by decide) (by decide) hr1 hr2 rfl).1⟩
